import Mathlib

/-!
A verification development for a small linear-algebra code base
(`plane.py`, `hyperplane.py`, `linsys.py`).

Python `Decimal` values are embedded as exact rationals (`ℚ`); the
code's near-zero tolerance (the float `1e-10`) is kept as an explicit
exact epsilon.
The `vector` module is not part of the repository sources; its
operations are modelled from the spec's consumed-interface contract
(§4.1) and are marked `Modelled from the spec:` below.

Loops are embedded as fuel-indexed structural recursions; the fuel
passed by the wrappers strictly dominates the loop measure (the
column/row cursors are monotone and bounded), so the zero-fuel branch
is never taken for the wrappers' calls.

Fallible Python code (raised exceptions) is embedded with
`Except`/`Option` results.
-/

/- Batteries marks the rational operations `@[irreducible]`, which blocks
the elaborator's reduction (the kernel ignores reducibility); restore
semireducibility so that concrete runs of the embedded algorithms can be
settled by `decide`. -/
set_option allowUnsafeReducibility true in
attribute [semireducible] Rat.add Rat.mul Rat.inv Rat.sub

deriving instance DecidableEq for Except

set_option maxRecDepth 100000

namespace UdacityLinAlg

/-- The shared tolerance: `is_near_zero(eps=1e-10)` compares the `Decimal`
against the Python float literal `1e-10`.  The comparison itself is exact
(no rounding), so the threshold is the float's exact value
`7737125245533627 / 2 ^ 86` ≈ 1.0000000000000000364e-10, slightly above
`10 ^ (-10)`: a `Decimal` of exactly `1E-10` *is* near zero. -/
def eps : ℚ := 7737125245533627 / 2 ^ 86

/-- `MyDecimal.is_near_zero`: `abs(self) < eps`, written with two strict
comparisons so that it evaluates by kernel reduction. -/
def isNearZero (x : ℚ) : Bool := decide (-eps < x) && decide (x < eps)

/-- Modelled from the spec: the external `Vector` is an ordered sequence of
exact-precision scalars; `add` is coordinatewise addition. -/
def vadd (v w : List ℚ) : List ℚ := List.zipWith (· + ·) v w

/-- Modelled from the spec: `Vector` subtraction (`substract` in the source),
coordinatewise. -/
def vsub (v w : List ℚ) : List ℚ := List.zipWith (· - ·) v w

/-- Modelled from the spec: `Vector.scalar_multiply`, coordinatewise scaling. -/
def vscale (c : ℚ) (v : List ℚ) : List ℚ := v.map (fun x => c * x)

/-- Modelled from the spec: `Vector.dot`, the sum of coordinatewise products. -/
def vdot (v w : List ℚ) : ℚ := (List.zipWith (· * ·) v w).sum

/-- Modelled from the spec: `Vector.is_zero`, the zero test within epsilon
(every coordinate within epsilon of zero). -/
def visZero (v : List ℚ) : Bool := v.all (fun x => isNearZero x)

/-- `Plane.first_nonzero_index` / `Hyperplane.first_nonzero_index`, with the
running index made explicit: the first index whose entry is not within
epsilon of zero.  The `NO_NONZERO_ELTS_FOUND_MSG` exception is embedded
as `none`. -/
def firstNonzeroAux : List ℚ → ℕ → Option ℕ
  | [], _ => none
  | x :: xs, i => if isNearZero x then firstNonzeroAux xs (i + 1) else some i

/-- First non-near-zero index of a vector (`first_nonzero_index`). -/
def firstNonzeroIndex (v : List ℚ) : Option ℕ := firstNonzeroAux v 0

/-- Modelled from the spec: `Vector.is_parallel` — collinearity under an
epsilon-tolerant scalar-multiple check; a zero vector is parallel to
everything.  The candidate ratio is read off at the first non-near-zero
coordinate of `v`. -/
def visParallel (v w : List ℚ) : Bool :=
  visZero v || visZero w ||
    match firstNonzeroIndex v with
    | none => true
    | some i =>
        let c := w.getD i 0 / v.getD i 0
        (List.range (max v.length w.length)).all
          (fun j => isNearZero (w.getD j 0 - c * v.getD j 0))

/-- Modelled from the spec: `Vector.is_orthogonal` — dot product within
epsilon of zero. -/
def visOrthogonal (v w : List ℚ) : Bool := isNearZero (vdot v w)

/-- A `Plane` (`plane.py`): a normal vector and a constant term.  The
source hardcodes `self.dimension = 3` regardless of the normal vector's
length; see `Plane.dimension`. -/
structure Plane where
  normal_vector : List ℚ
  constant_term : ℚ
deriving DecidableEq

/-- `plane.py` sets `self.dimension = 3` for every plane. -/
def Plane.dimension (_ : Plane) : ℕ := 3

/-- `Plane.set_basepoint`: the cached basepoint — a single coordinate set at
the first non-near-zero index of the normal vector, value
`constant_term / coefficient`; `None` when no such index exists. -/
def Plane.basepoint (p : Plane) : Option (List ℚ) :=
  (firstNonzeroIndex p.normal_vector).map
    (fun i => (List.replicate p.dimension (0 : ℚ)).set i
      (p.constant_term / p.normal_vector.getD i 0))

/-- `Plane.is_parallel`: delegates to the normal vectors' parallel test. -/
def Plane.is_parallel (p q : Plane) : Bool :=
  visParallel p.normal_vector q.normal_vector

/-- `Plane.is_orthogonal`: delegates to the normal vectors' orthogonality
test. -/
def Plane.is_orthogonal (p q : Plane) : Bool :=
  visOrthogonal p.normal_vector q.normal_vector

/-- `Plane.__eq__` — the coincidence test. -/
def Plane.eq (p q : Plane) : Bool :=
  if visZero p.normal_vector then
    if !visZero q.normal_vector then false
    else isNearZero (p.constant_term - q.constant_term)
  else if visZero q.normal_vector then false
  else if !p.is_parallel q then false
  else
    visOrthogonal (vsub (p.basepoint.getD []) (q.basepoint.getD []))
      p.normal_vector

/-- A `Hyperplane` (`hyperplane.py`): an explicit dimension, a normal
vector and a constant term. -/
structure Hyperplane where
  dimension : ℕ
  normal_vector : List ℚ
  constant_term : ℚ
deriving DecidableEq

/-- Error message of `Hyperplane.__init__`. -/
def EITHER_DIM_OR_NORMAL_VEC_MUST_BE_PROVIDED_MSG : String :=
  "Either the dimension of the hyperplane or the normal vector must be provided"

/-- `Hyperplane.set_basepoint`: as for `Plane`, but the coordinate list has
the hyperplane's own dimension. -/
def Hyperplane.set_basepoint (h : Hyperplane) : Option (List ℚ) :=
  (firstNonzeroIndex h.normal_vector).map
    (fun i => (List.replicate h.dimension (0 : ℚ)).set i
      (h.constant_term / h.normal_vector.getD i 0))

/-- Python truthiness of the optional `dimension` argument: `not dimension`
is `True` for `None` and for `0`. -/
def dimFalsy (dimension : Option ℤ) : Bool :=
  match dimension with
  | none => true
  | some d => d = 0

/-- `Hyperplane.__init__`.  An absent argument is `none`.  A `Vector`
argument is truthy whenever present (the external `Vector` class defines
no `__bool__`/`__len__`), so only `None` is falsy for `normal_vector`.
`['0'] * d` for a non-positive `d` is the empty list (`Int.toNat`).
An absent or falsy `constant_term` defaults to zero. -/
def hyperplaneNew (dimension : Option ℤ) (normal_vector : Option (List ℚ))
    (constant_term : Option ℚ) : Except String Hyperplane :=
  if dimFalsy dimension ∧ normal_vector = none then
    .error EITHER_DIM_OR_NORMAL_VEC_MUST_BE_PROVIDED_MSG
  else
    match normal_vector with
    | none =>
        let d := (dimension.getD 0).toNat
        .ok ⟨d, List.replicate d (0 : ℚ), constant_term.getD 0⟩
    | some nv => .ok ⟨nv.length, nv, constant_term.getD 0⟩

/-- `Hyperplane.is_parallel`. -/
def Hyperplane.is_parallel (p q : Hyperplane) : Bool :=
  visParallel p.normal_vector q.normal_vector

/-- `Hyperplane.is_orthogonal`. -/
def Hyperplane.is_orthogonal (p q : Hyperplane) : Bool :=
  visOrthogonal p.normal_vector q.normal_vector

/-- `Hyperplane.__eq__` — the coincidence test (same four-case protocol as
`Plane.__eq__`). -/
def Hyperplane.eq (p q : Hyperplane) : Bool :=
  if visZero p.normal_vector then
    if !visZero q.normal_vector then false
    else isNearZero (p.constant_term - q.constant_term)
  else if visZero q.normal_vector then false
  else if !p.is_parallel q then false
  else
    visOrthogonal (vsub (p.set_basepoint.getD []) (q.set_basepoint.getD []))
      p.normal_vector

/-! ## The linear system (`linsys.py`) -/

/-- Error messages of `LinearSystem`. -/
def ALL_PLANES_MUST_BE_IN_SAME_DIM_MSG : String :=
  "All planes in the system should live in the same dimension"

/-- `LinearSystem.NO_SOLUTIONS_MSG`. -/
def NO_SOLUTIONS_MSG : String := "No solutions"

/-- `LinearSystem.INF_SOLUTIONS_MSG`. -/
def INF_SOLUTIONS_MSG : String := "Infinitely many solutions"

/-- A `LinearSystem`: an ordered collection of planes. -/
structure LinearSystem where
  planes : List Plane
deriving DecidableEq

/-- `self.dimension = planes[0].dimension`; `Plane.dimension` is always 3. -/
def LinearSystem.dimension (_ : LinearSystem) : ℕ := 3

/-- `LinearSystem.__init__`: `planes[0]` raises `IndexError` on an empty
list (uncaught); the per-plane dimension assertion compares the (constant)
`Plane.dimension` values, so it never fails for a nonempty list. -/
def linearSystemNew (planes : List Plane) : Except String LinearSystem :=
  match planes with
  | [] => .error "IndexError"
  | p :: _ =>
      if planes.all (fun q => q.dimension = p.dimension) then .ok ⟨planes⟩
      else .error ALL_PLANES_MUST_BE_IN_SAME_DIM_MSG

/-- `LinearSystem.__setitem__`: asserts the new row's dimension equals the
system's dimension. -/
def LinearSystem.setitem (s : LinearSystem) (i : ℕ) (x : Plane) :
    Except String LinearSystem :=
  if x.dimension = s.dimension then .ok ⟨s.planes.set i x⟩
  else .error ALL_PLANES_MUST_BE_IN_SAME_DIM_MSG

/-- Row access `self.planes[row]` (in-range at all embedded call sites). -/
def LinearSystem.row (s : LinearSystem) (i : ℕ) : Plane :=
  s.planes.getD i ⟨[], 0⟩

/-- Entry access `self[row].normal_vector[col]`. -/
def LinearSystem.entry (s : LinearSystem) (row col : ℕ) : ℚ :=
  (s.row row).normal_vector.getD col 0

/-- `LinearSystem.swap_rows`: the Python tuple assignment reads both rows
before writing. -/
def LinearSystem.swap_rows (s : LinearSystem) (row1 row2 : ℕ) : LinearSystem :=
  let p1 := s.row row1
  let p2 := s.row row2
  ⟨(s.planes.set row2 p1).set row1 p2⟩

/-- `LinearSystem.multiply_coefficient_and_row`: replaces the row with the
coefficient-scaled normal vector and constant term. -/
def LinearSystem.multiply_coefficient_and_row (s : LinearSystem) (c : ℚ)
    (row : ℕ) : LinearSystem :=
  let p := s.row row
  ⟨s.planes.set row ⟨vscale c p.normal_vector, p.constant_term * c⟩⟩

/-- `LinearSystem.add_multiple_times_row_to_row`: the target row becomes
`coefficient · source + target`, on normal vectors and constant terms. -/
def LinearSystem.add_multiple_times_row_to_row (s : LinearSystem) (c : ℚ)
    (row_to_add row_to_be_added_to : ℕ) : LinearSystem :=
  let p1 := s.row row_to_add
  let p2 := s.row row_to_be_added_to
  ⟨s.planes.set row_to_be_added_to
    ⟨vadd (vscale c p1.normal_vector) p2.normal_vector,
     p1.constant_term * c + p2.constant_term⟩⟩

/-- `LinearSystem.indices_of_first_nonzero_terms_in_each_row`: per row the
first non-near-zero index of the normal vector, or `-1`. -/
def LinearSystem.indices_of_first_nonzero_terms_in_each_row
    (s : LinearSystem) : List ℤ :=
  s.planes.map (fun p =>
    match firstNonzeroIndex p.normal_vector with
    | some i => (i : ℤ)
    | none => -1)

/-- `LinearSystem.swap_with_row_below_for_nonzero_coefficient`: find the
first strictly-lower row with a non-near-zero entry in `col` and swap it
up; `none` when there is none. -/
def LinearSystem.swap_with_row_below_for_nonzero_coefficient
    (s : LinearSystem) (row col : ℕ) : Option LinearSystem :=
  match (List.range' (row + 1) (s.planes.length - (row + 1))).find?
      (fun k => !isNearZero (s.entry k col)) with
  | some k => some (s.swap_rows row k)
  | none => none

/-- `LinearSystem.clear_coeffs_below`: for each lower row `k`, add
`-(entry k col / beta)` times the pivot row, where `beta` is read once
before the loop. -/
def LinearSystem.clear_coeffs_below (s : LinearSystem) (row col : ℕ) :
    LinearSystem :=
  let beta := s.entry row col
  (List.range' (row + 1) (s.planes.length - (row + 1))).foldl
    (fun sys k =>
      sys.add_multiple_times_row_to_row (-(sys.entry k col) / beta) row k)
    s

/-- `LinearSystem.clear_coefficients_above`: for each higher row `k` (top
direction), add `-(entry k col)` times the pivot row. -/
def LinearSystem.clear_coefficients_above (s : LinearSystem) (row col : ℕ) :
    LinearSystem :=
  (List.range row).reverse.foldl
    (fun sys k =>
      sys.add_multiple_times_row_to_row (-(sys.entry k col)) row k)
    s

/-- `LinearSystem.scale_row_to_make_coefficient_equal_one`:
`Decimal('1.0') / n[col]` raises on a zero entry (`none`). -/
def LinearSystem.scale_row_to_make_coefficient_equal_one (s : LinearSystem)
    (row col : ℕ) : Option LinearSystem :=
  let c := s.entry row col
  if c = 0 then none else some (s.multiply_coefficient_and_row (1 / c) row)

/-- The nested loop of `compute_triangular_form`, with explicit fuel.  The
`for` loop walks `row`; the inner `while` walks the shared column cursor
`col`; a near-zero entry triggers a swap search, and a failed search
advances the column on the same row. -/
def ctfGo : ℕ → LinearSystem → ℕ → ℕ → ℕ → ℕ → LinearSystem
  | 0, sys, _, _, _, _ => sys
  | fuel + 1, sys, n_eq, n_vars, row, col =>
      if row < n_eq then
        if col < n_vars then
          if isNearZero (sys.entry row col) then
            match sys.swap_with_row_below_for_nonzero_coefficient row col with
            | none => ctfGo fuel sys n_eq n_vars row (col + 1)
            | some sys2 =>
                ctfGo fuel (sys2.clear_coeffs_below row col) n_eq n_vars
                  (row + 1) (col + 1)
          else
            ctfGo fuel (sys.clear_coeffs_below row col) n_eq n_vars
              (row + 1) (col + 1)
        else ctfGo fuel sys n_eq n_vars (row + 1) col
      else sys

/-- `LinearSystem.compute_triangular_form`: operates on a (value) copy of
the system; the fuel dominates the loop measure
`(n_eq - row) + (n_vars - col)`. -/
def LinearSystem.compute_triangular_form (s : LinearSystem) : LinearSystem :=
  ctfGo (s.planes.length + s.dimension + 1) s s.planes.length s.dimension 0 0

/-- The bottom-to-top loop of `compute_rref`; the argument counts how many
top rows remain to process.  Pivot indices are the ones recorded from the
triangular form.  A zero pivot entry at scaling time is the Python
`DivisionByZero` (`none`). -/
def rrefGo (pivots : List ℤ) : LinearSystem → ℕ → Option LinearSystem
  | sys, 0 => some sys
  | sys, row + 1 =>
      let pv := pivots.getD row (-1)
      if pv < 0 then rrefGo pivots sys row
      else
        match sys.scale_row_to_make_coefficient_equal_one row pv.toNat with
        | none => none
        | some sys2 =>
            rrefGo pivots (sys2.clear_coefficients_above row pv.toNat) row

/-- `LinearSystem.compute_rref`: triangular form, then bottom-up pivot
normalisation and clearing above. -/
def LinearSystem.compute_rref (s : LinearSystem) : Option LinearSystem :=
  let t := s.compute_triangular_form
  rrefGo t.indices_of_first_nonzero_terms_in_each_row t t.planes.length

/-- `LinearSystem.raise_excepion_if_contradictory_equation`, as a test: a
row with an all-near-zero normal vector and a non-near-zero constant
term. -/
def LinearSystem.contradictory_equation (s : LinearSystem) : Bool :=
  s.planes.any (fun p =>
    (firstNonzeroIndex p.normal_vector).isNone && !isNearZero p.constant_term)

/-- The per-row walk of `extract_direction_vectors_for_parametrization`:
set coordinate `pivot` of the vector under construction to the negative
of the row's coefficient at the free column; stop at the first row
without a pivot. -/
def dirWalk (f : ℕ) : List (Plane × ℤ) → List ℚ → List ℚ
  | [], coords => coords
  | (p, pv) :: rest, coords =>
      if pv < 0 then coords
      else dirWalk f rest (coords.set pv.toNat (-(p.normal_vector.getD f 0)))

/-- `LinearSystem.extract_direction_vectors_for_parametrization`: one
direction vector per free column (ascending; the Python set of small
naturals iterates in ascending order). -/
def LinearSystem.extract_direction_vectors_for_parametrization
    (s : LinearSystem) : List (List ℚ) :=
  let n := s.dimension
  let pivots := s.indices_of_first_nonzero_terms_in_each_row
  let free := (List.range n).filter (fun j => !pivots.contains (Int.ofNat j))
  free.map (fun f =>
    dirWalk f (s.planes.zip pivots) ((List.replicate n (0 : ℚ)).set f 1))

/-- The per-row walk of `extract_basepoint_for_parametrization`: set
coordinate `pivot` to the row's constant term; stop at the first row
without a pivot. -/
def bpWalk : List (Plane × ℤ) → List ℚ → List ℚ
  | [], coords => coords
  | (p, pv) :: rest, coords =>
      if pv < 0 then coords
      else bpWalk rest (coords.set pv.toNat p.constant_term)

/-- `LinearSystem.extract_basepoint_for_parametrization`. -/
def LinearSystem.extract_basepoint_for_parametrization (s : LinearSystem) :
    List ℚ :=
  bpWalk (s.planes.zip s.indices_of_first_nonzero_terms_in_each_row)
    (List.replicate s.dimension (0 : ℚ))

/-- A `Parametrization`: basepoint plus direction vectors. -/
structure Parametrization where
  basepoint : List ℚ
  direction_vectors : List (List ℚ)
deriving DecidableEq

/-- Error message of `Parametrization.__init__`. -/
def BASEPT_AND_DIR_VECTORS_MUST_BE_IN_SAME_DIM : String :=
  "The basepoint and direction vectors should all live in the same dimension"

/-- `Parametrization.__init__`: every direction vector must share the
basepoint's dimension. -/
def parametrizationNew (bp : List ℚ) (dvs : List (List ℚ)) :
    Except String Parametrization :=
  if dvs.all (fun v => v.length = bp.length) then .ok ⟨bp, dvs⟩
  else .error BASEPT_AND_DIR_VECTORS_MUST_BE_IN_SAME_DIM

/-- `LinearSystem.do_gaussian_elimination_and_parametrization`. -/
def LinearSystem.do_gaussian_elimination_and_parametrization
    (s : LinearSystem) : Except String Parametrization :=
  match s.compute_rref with
  | none => .error "DivisionByZero"
  | some rref =>
      if rref.contradictory_equation then .error NO_SOLUTIONS_MSG
      else
        parametrizationNew rref.extract_basepoint_for_parametrization
          rref.extract_direction_vectors_for_parametrization

/-- `LinearSystem.compute_solution`: the two classification messages are
caught and returned as descriptive results; everything else propagates. -/
def LinearSystem.compute_solution (s : LinearSystem) :
    Except String (String ⊕ Parametrization) :=
  match s.do_gaussian_elimination_and_parametrization with
  | .ok p => .ok (.inr p)
  | .error m =>
      if m = NO_SOLUTIONS_MSG ∨ m = INF_SOLUTIONS_MSG then .ok (.inl m)
      else .error m

/-! ## Solution-set predicates (spec §8) and elementary operations as data -/

/-- An elementary row operation (claim C3): `swap_rows`,
`multiply_coefficient_and_row`, `add_multiple_times_row_to_row`. -/
inductive RowOp : Type
  | swap (row1 row2 : ℕ)
  | scale (c : ℚ) (row : ℕ)
  | addMul (c : ℚ) (row_to_add row_to_be_added_to : ℕ)
deriving DecidableEq

/-- Apply one elementary row operation. -/
def RowOp.apply : RowOp → LinearSystem → LinearSystem
  | .swap i j, s => s.swap_rows i j
  | .scale c i, s => s.multiply_coefficient_and_row c i
  | .addMul c i j, s => s.add_multiple_times_row_to_row c i j

/-- Every normal-vector entry of the system is either exactly zero or not
within epsilon of zero (no "tiny but nonzero" entries). -/
def cleanSys (s : LinearSystem) : Bool :=
  s.planes.all (fun p =>
    p.normal_vector.all (fun x => decide (x = 0) || !isNearZero x))

/-- Mirror of `ctfGo` recording that every state at which the elimination
makes an epsilon decision is clean. -/
def ctfCleanGo : ℕ → LinearSystem → ℕ → ℕ → ℕ → ℕ → Bool
  | 0, sys, _, _, _, _ => cleanSys sys
  | fuel + 1, sys, n_eq, n_vars, row, col =>
      cleanSys sys &&
      (if row < n_eq then
        if col < n_vars then
          if isNearZero (sys.entry row col) then
            match sys.swap_with_row_below_for_nonzero_coefficient row col with
            | none => ctfCleanGo fuel sys n_eq n_vars row (col + 1)
            | some sys2 =>
                ctfCleanGo fuel (sys2.clear_coeffs_below row col) n_eq n_vars
                  (row + 1) (col + 1)
          else
            ctfCleanGo fuel (sys.clear_coeffs_below row col) n_eq n_vars
              (row + 1) (col + 1)
        else ctfCleanGo fuel sys n_eq n_vars (row + 1) col
      else true)

/-- The whole `compute_triangular_form` run of a system is clean. -/
def LinearSystem.cleanTriangularRun (s : LinearSystem) : Bool :=
  ctfCleanGo (s.planes.length + s.dimension + 1) s s.planes.length
    s.dimension 0 0

/-- Claim C5's description of one row of the reduced system `r` against the
triangular form `t`: a pivot-bearing row has entry exactly one at its
pivot column and near-zero entries above it; a pivotless row equals the
corresponding row of `t`. -/
def rrefRowOkB (r t : LinearSystem) (i : ℕ) : Bool :=
  match firstNonzeroIndex (r.row i).normal_vector with
  | some p =>
      decide (r.entry i p = 1) &&
        (List.range i).all (fun k => isNearZero (r.entry k p))
  | none => decide (r.row i = t.row i)

/-- Claim C5's description of the whole reduced system of `s`. -/
def rrefClaimB (s : LinearSystem) : Bool :=
  match s.compute_rref with
  | none => false
  | some r =>
      (List.range r.planes.length).all
        (fun i => rrefRowOkB r s.compute_triangular_form i)

/-! ## A store model for the mutation/copy discipline (claim C9)

Python objects are references: a `LinearSystem`'s row storage is a
mutable list reachable from the caller, the in-place row operations
write through the reference, and `compute_triangular_form` first
allocates a fresh deep copy (`deepcopy(self)`) and then mutates only the
copy.  The store maps references (allocation indices) to row lists. -/

/-- The heap: reference `r` holds the row list of one system object. -/
abbrev Store : Type := List (List Plane)

/-- Dereference. -/
def Store.read (st : Store) (r : ℕ) : List Plane := st.getD r []

/-- In-place update of the object behind `r`. -/
def Store.write (st : Store) (r : ℕ) (pl : List Plane) : Store := st.set r pl

/-- `deepcopy`: allocate a fresh object with a copied row list. -/
def Store.alloc (st : Store) (pl : List Plane) : Store × ℕ :=
  (st ++ [pl], st.length)

/-- `swap_rows` through a reference. -/
def swapRowsS (st : Store) (r row1 row2 : ℕ) : Store :=
  st.write r ((LinearSystem.swap_rows ⟨st.read r⟩ row1 row2).planes)

/-- `add_multiple_times_row_to_row` through a reference. -/
def addMultipleS (st : Store) (r : ℕ) (c : ℚ) (i j : ℕ) : Store :=
  st.write r ((LinearSystem.add_multiple_times_row_to_row ⟨st.read r⟩ c i j).planes)

/-- `multiply_coefficient_and_row` through a reference. -/
def multiplyS (st : Store) (r : ℕ) (c : ℚ) (row : ℕ) : Store :=
  st.write r ((LinearSystem.multiply_coefficient_and_row ⟨st.read r⟩ c row).planes)

/-- `swap_with_row_below_for_nonzero_coefficient` through a reference. -/
def swapBelowS (st : Store) (r row col : ℕ) : Option Store :=
  let s : LinearSystem := ⟨st.read r⟩
  match (List.range' (row + 1) (s.planes.length - (row + 1))).find?
      (fun k => !isNearZero (s.entry k col)) with
  | some k => some (swapRowsS st r row k)
  | none => none

/-- `clear_coeffs_below` through a reference: `beta` is read once, each
step writes through `r`. -/
def clearBelowS (st : Store) (r row col : ℕ) : Store :=
  let beta := LinearSystem.entry ⟨st.read r⟩ row col
  (List.range' (row + 1) ((st.read r).length - (row + 1))).foldl
    (fun st2 k =>
      addMultipleS st2 r
        (-(LinearSystem.entry ⟨st2.read r⟩ k col) / beta) row k)
    st

/-- `clear_coefficients_above` through a reference. -/
def clearAboveS (st : Store) (r row col : ℕ) : Store :=
  (List.range row).reverse.foldl
    (fun st2 k =>
      addMultipleS st2 r (-(LinearSystem.entry ⟨st2.read r⟩ k col)) row k)
    st

/-- The `compute_triangular_form` loop, mutating the object behind `r`. -/
def ctfGoS : ℕ → Store → ℕ → ℕ → ℕ → ℕ → ℕ → Store
  | 0, st, _, _, _, _, _ => st
  | fuel + 1, st, r, n_eq, n_vars, row, col =>
      if row < n_eq then
        if col < n_vars then
          if isNearZero (LinearSystem.entry ⟨st.read r⟩ row col) then
            match swapBelowS st r row col with
            | none => ctfGoS fuel st r n_eq n_vars row (col + 1)
            | some st2 =>
                ctfGoS fuel (clearBelowS st2 r row col) r n_eq n_vars
                  (row + 1) (col + 1)
          else
            ctfGoS fuel (clearBelowS st r row col) r n_eq n_vars
              (row + 1) (col + 1)
        else ctfGoS fuel st r n_eq n_vars (row + 1) col
      else st

/-- `compute_triangular_form` in the store model: allocate the deep copy,
run the loop on the copy, return the store and the copy's reference. -/
def computeTriangularFormS (st : Store) (r : ℕ) : Store × ℕ :=
  let a := st.alloc (st.read r)
  let n_eq := (st.read r).length
  (ctfGoS (n_eq + 3 + 1) a.1 a.2 n_eq 3 0 0, a.2)

/-- The `compute_rref` loop in the store model, mutating the object behind
`r`. -/
def rrefGoS (pivots : List ℤ) : Store → ℕ → ℕ → Option Store
  | st, _, 0 => some st
  | st, r, row + 1 =>
      let pv := pivots.getD row (-1)
      if pv < 0 then rrefGoS pivots st r row
      else
        let c := LinearSystem.entry ⟨st.read r⟩ row pv.toNat
        if c = 0 then none
        else
          rrefGoS pivots
            (clearAboveS (multiplyS st r (1 / c) row) r row pv.toNat) r row

/-- `compute_rref` in the store model: the triangular form allocates the
copy; the reduction loop then mutates the copy in place. -/
def computeRrefS (st : Store) (r : ℕ) : Option (Store × ℕ) :=
  let a := computeTriangularFormS st r
  let pivots :=
    LinearSystem.indices_of_first_nonzero_terms_in_each_row ⟨a.1.read a.2⟩
  (rrefGoS pivots a.1 a.2 (a.1.read a.2).length).map (fun st2 => (st2, a.2))

/-! ## Concrete systems named by the claims -/

/-- The 3-equation, 3-unknown system of claim C1. -/
def sysUnique : LinearSystem :=
  ⟨[⟨[1, 1, 1], 1⟩, ⟨[0, 1, 0], 2⟩, ⟨[0, 0, 1], 3⟩]⟩

/-- The rank-deficient dimension-4 system of claim C2. -/
def sysRankDeficient : LinearSystem := ⟨[⟨[1, 1, 1, 1], 1⟩, ⟨[1, 1, 2, 2], 2⟩]⟩

/-- The contradictory system `0x+0y+0z=0`, `0x+0y+0z=5` of claim C6. -/
def sysContradictory : LinearSystem := ⟨[⟨[0, 0, 0], 0⟩, ⟨[0, 0, 0], 5⟩]⟩

/-- A one-row system whose recorded pivot (column 1, entry `1e-5`) has the
near-zero but nonzero entry `1e-14` on its left; normalising the pivot to
one scales that entry up to `1e-9`, which is no longer near zero.  All
values are signed powers of ten far from the epsilon threshold, and every
operation of the run is exact in 30-significant-digit `Decimal`
(`1.0 / 1E-5 = 1E+5` and the three products are exact), so the program
computes exactly this run. -/
def sysTinyLead : LinearSystem := ⟨[⟨[1 / 10 ^ 14, 1 / 10 ^ 5, 0], 1⟩]⟩

/-- Claim C10's four-case coincidence protocol, stated from the spec's
wording: (a) one zero normal vector — coincide iff both are zero and the
constant terms differ by less than epsilon; (b) exactly one zero normal
vector — no; (c) not parallel — no; (d) otherwise coincide iff the vector
between the basepoints is orthogonal (within epsilon) to the normal
vector. -/
def coincidenceProtocol (p q : Hyperplane) : Prop :=
  if visZero p.normal_vector then
    visZero q.normal_vector = true ∧
      isNearZero (p.constant_term - q.constant_term) = true
  else if visZero q.normal_vector then False
  else if p.is_parallel q = false then False
  else ∃ bp1 bp2, p.set_basepoint = some bp1 ∧ q.set_basepoint = some bp2 ∧
    isNearZero (vdot (vsub bp1 bp2) p.normal_vector) = true

/-- The recorded pivot of one row: the first non-near-zero index of its
normal vector. -/
def LinearSystem.pivotOf (s : LinearSystem) (r : ℕ) : Option ℕ :=
  firstNonzeroIndex (s.row r).normal_vector

/-- The echelon structure the elimination is meant to produce (used for
claims C4 and C5): well-formed sizes; rows without a pivot only below
every pivot-bearing row; strictly increasing pivot columns; exact zeros
before each pivot and below each pivot in its column; pivotless rows all
zero. -/
def triShape (sys : LinearSystem) (n_eq n_vars : ℕ) : Prop :=
  sys.planes.length = n_eq ∧
  (∀ p ∈ sys.planes, p.normal_vector.length = n_vars) ∧
  (∀ r1 r2, r1 < r2 → r2 < n_eq →
    sys.pivotOf r1 = none → sys.pivotOf r2 = none) ∧
  (∀ r1 r2 p1 p2, r1 < r2 → r2 < n_eq →
    sys.pivotOf r1 = some p1 → sys.pivotOf r2 = some p2 → p1 < p2) ∧
  (∀ r p, r < n_eq → sys.pivotOf r = some p →
    (∀ j, j < p → sys.entry r j = 0) ∧
    (∀ k, r < k → k < n_eq → sys.entry k p = 0)) ∧
  (∀ r, r < n_eq → sys.pivotOf r = none → ∀ j, sys.entry r j = 0)

/-- The loop invariant of `compute_triangular_form` at state
`(sys, row, col)`. -/
def ctfInv (sys : LinearSystem) (n_eq n_vars row col : ℕ) : Prop :=
  sys.planes.length = n_eq ∧
  (∀ p ∈ sys.planes, p.normal_vector.length = n_vars) ∧
  (∀ k, row ≤ k → k < n_eq → ∀ j, j < col → sys.entry k j = 0) ∧
  (∀ r1 r2, r1 < r2 → r2 < row → r2 < n_eq →
    sys.pivotOf r1 = none → sys.pivotOf r2 = none) ∧
  (∀ r1 r2 p1 p2, r1 < r2 → r2 < row → r2 < n_eq →
    sys.pivotOf r1 = some p1 → sys.pivotOf r2 = some p2 → p1 < p2) ∧
  (∀ r p, r < row → r < n_eq → sys.pivotOf r = some p → p < col) ∧
  (∀ r, r < row → r < n_eq → sys.pivotOf r = none → n_vars ≤ col) ∧
  (∀ r p, r < row → r < n_eq → sys.pivotOf r = some p →
    (∀ j, j < p → sys.entry r j = 0) ∧
    (∀ k, r < k → k < n_eq → sys.entry k p = 0)) ∧
  (∀ r, r < row → r < n_eq → sys.pivotOf r = none → ∀ j, sys.entry r j = 0)

/-- The loop invariant of `compute_rref`'s bottom-to-top pass over the
triangular form `t`, with `m` rows left to process: processed rows
(`m ≤ r`) have entry one at their recorded pivot and zeros elsewhere in
the pivot column; pivotless rows are untouched; unprocessed rows keep
their pivot entry and the echelon zeros. -/
def rrefInv (t sys : LinearSystem) (n_eq n_vars m : ℕ) : Prop :=
  sys.planes.length = n_eq ∧
  (∀ p ∈ sys.planes, p.normal_vector.length = n_vars) ∧
  (∀ r p, m ≤ r → r < n_eq → t.pivotOf r = some p →
    sys.entry r p = 1 ∧ (∀ j, j < p → sys.entry r j = 0) ∧
    (∀ k, k < n_eq → k ≠ r → sys.entry k p = 0)) ∧
  (∀ r, r < n_eq → t.pivotOf r = none → sys.row r = t.row r) ∧
  (∀ r p, r < m → t.pivotOf r = some p →
    sys.entry r p = t.entry r p ∧ (∀ j, j < p → sys.entry r j = 0) ∧
    (∀ k, r < k → k < n_eq → sys.entry k p = 0))

/-! ## Exactness of the Decimal arithmetic (claim C5)

The source sets `getcontext().prec = 30`: every Python `Decimal`
operation rounds its exact result to 30 significant digits, and returns
it unchanged exactly when it is so representable.  The predicates below
walk the elimination and check that every division, scalar product and
sum it performs has an exact result representable in 30 significant
digits; on such runs the program's `Decimal` arithmetic is exact, so it
coincides operation by operation with the rational embedding.  (The
epsilon comparisons themselves are always exact and need no check.) -/

/-- Divide the factor `p` out of `n` as often as it divides it.  The fuel
only bounds the number of divisions actually performed (at most
`log p n`), so `fuel = n` always suffices. -/
def stripFactor (p : ℕ) : ℕ → ℕ → ℕ
  | 0, n => n
  | fuel + 1, n => if n ≠ 0 ∧ n % p = 0 then stripFactor p fuel (n / p) else n

/-- The multiplicity of the factor `p` in `n` (same fuel discipline). -/
def padicCount (p : ℕ) : ℕ → ℕ → ℕ
  | 0, _ => 0
  | fuel + 1, n =>
      if n ≠ 0 ∧ n % p = 0 then padicCount p fuel (n / p) + 1 else 0

/-- `x` is representable as a precision-30 `Decimal`: `x = m · 10 ^ e`
with an integer coefficient `m` of at most 30 digits.  In lowest terms
the denominator may hold only the factors 2 and 5, and the decimal
coefficient, trailing zeros removed, must stay below `10 ^ 30`. -/
def isRepr30 (x : ℚ) : Bool :=
  if x = 0 then true
  else
    let d := x.den
    if stripFactor 5 d (stripFactor 2 d d) ≠ 1 then false
    else
      let a := padicCount 2 d d
      let b := padicCount 5 d d
      let coeff := x.num.natAbs * 2 ^ (max a b - a) * 5 ^ (max a b - b)
      decide (stripFactor 10 coeff coeff < 10 ^ 30)

/-- Exactness of one `add_multiple_times_row_to_row` call: every scalar
product with the coefficient and every following sum (normal-vector
coordinates and constant terms) is representable in 30 significant
digits. -/
def addMulExact (s : LinearSystem) (c : ℚ) (i j : ℕ) : Bool :=
  let p1 := s.row i
  let p2 := s.row j
  (List.zipWith
      (fun a b => isRepr30 (c * a) && isRepr30 (c * a + b))
      p1.normal_vector p2.normal_vector).all (fun x => x) &&
  isRepr30 (p1.constant_term * c) &&
  isRepr30 (p1.constant_term * c + p2.constant_term)

/-- Exactness of one `clear_coeffs_below` call: each computed quotient
`-(entry) / beta` and each row combination it feeds is representable
(the negation of a stored value is always exact). -/
def clearBelowExact (s : LinearSystem) (row col : ℕ) : Bool :=
  let beta := s.entry row col
  ((List.range' (row + 1) (s.planes.length - (row + 1))).foldl
    (fun st k =>
      let c := -(st.2.entry k col) / beta
      (st.1 && isRepr30 c && addMulExact st.2 c row k,
       st.2.add_multiple_times_row_to_row c row k))
    (true, s)).1

/-- Exactness of one `clear_coefficients_above` call; the coefficients
`-(entry)` are exact negations of stored values, so only the row
combinations need checking. -/
def clearAboveExact (s : LinearSystem) (row col : ℕ) : Bool :=
  ((List.range row).reverse.foldl
    (fun st k =>
      let c := -(st.2.entry k col)
      (st.1 && addMulExact st.2 c row k,
       st.2.add_multiple_times_row_to_row c row k))
    (true, s)).1

/-- Mirror of `ctfGo` checking that every arithmetic operation of the
triangular phase is exact in precision-30 `Decimal`. -/
def ctfExactGo : ℕ → LinearSystem → ℕ → ℕ → ℕ → ℕ → Bool
  | 0, _, _, _, _, _ => true
  | fuel + 1, sys, n_eq, n_vars, row, col =>
      if row < n_eq then
        if col < n_vars then
          if isNearZero (sys.entry row col) then
            match sys.swap_with_row_below_for_nonzero_coefficient row col with
            | none => ctfExactGo fuel sys n_eq n_vars row (col + 1)
            | some sys2 =>
                clearBelowExact sys2 row col &&
                  ctfExactGo fuel (sys2.clear_coeffs_below row col) n_eq
                    n_vars (row + 1) (col + 1)
          else
            clearBelowExact sys row col &&
              ctfExactGo fuel (sys.clear_coeffs_below row col) n_eq n_vars
                (row + 1) (col + 1)
        else ctfExactGo fuel sys n_eq n_vars (row + 1) col
      else true

/-- Mirror of `rrefGo` checking that every arithmetic operation of the
reduction phase is exact in precision-30 `Decimal`: the reciprocal
`Decimal('1.0') / n[col]`, the scaling of the pivot row, and the row
combinations clearing the column above. -/
def rrefExactGo (pivots : List ℤ) : LinearSystem → ℕ → Bool
  | _, 0 => true
  | sys, row + 1 =>
      let pv := pivots.getD row (-1)
      if pv < 0 then rrefExactGo pivots sys row
      else
        let c := sys.entry row pv.toNat
        if c = 0 then false
        else
          let u := 1 / c
          let p := sys.row row
          (isRepr30 u && p.normal_vector.all (fun v => isRepr30 (u * v)) &&
            isRepr30 (p.constant_term * u) &&
            clearAboveExact (sys.multiply_coefficient_and_row u row) row
              pv.toNat) &&
          rrefExactGo pivots
            ((sys.multiply_coefficient_and_row u row).clear_coefficients_above
              row pv.toNat) row

/-- The whole pipeline (`compute_triangular_form`, then `compute_rref`)
performs only arithmetic whose exact results are representable in 30
significant digits: on such a run precision-30 `Decimal` arithmetic
computes exactly the rationals of this embedding. -/
def LinearSystem.exactDecimalRun (s : LinearSystem) : Bool :=
  ctfExactGo (s.planes.length + s.dimension + 1) s s.planes.length
    s.dimension 0 0 &&
  rrefExactGo
    s.compute_triangular_form.indices_of_first_nonzero_terms_in_each_row
    s.compute_triangular_form s.compute_triangular_form.planes.length

/-! ## Claims settled by evaluation -/

/-- C1: for the system with normals `(1,1,1)`, `(0,1,0)`, `(0,0,1)` and
constants `1, 2, 3`, `compute_solution` returns a Parametrization with no
direction vectors and basepoint `(-4, 2, 3)`. -/
theorem claim_C1 :
    sysUnique.compute_solution = .ok (.inr ⟨[-4, 2, 3], []⟩) := by decide

/-- C2 (evaluation at the failing input): for the dimension-4 rank-deficient
system, `compute_solution` returns a Parametrization whose basepoint has
only 3 coordinates and which has a single direction vector, although the
system's equations have 4 variables (free columns 1 and 3):
`LinearSystem` takes its variable count from `Plane.dimension`, which
`plane.py` hardcodes to 3. -/
theorem claim_C2_eval :
    sysRankDeficient.compute_solution =
      .ok (.inr ⟨[0, 0, 1], [[-1, 1, 0]]⟩) ∧
    (∀ p ∈ sysRankDeficient.planes, p.normal_vector.length = 4) ∧
    (Parametrization.basepoint ⟨[0, 0, 1], [[-1, 1, 0]]⟩).length = 3 ∧
    (Parametrization.direction_vectors ⟨[0, 0, 1], [[-1, 1, 0]]⟩).length = 1 ∧
    sysRankDeficient.compute_triangular_form.indices_of_first_nonzero_terms_in_each_row
      = [0, 2] := by decide

/-- C8 (evaluation at the failing input): constructing a `LinearSystem`
from two planes whose normal vectors have different lengths (2 and 3)
succeeds, and replacing the only row of a system by a plane with a
2-entry normal vector succeeds, because `Plane.dimension` is the constant
3 for every plane, so the dimension assertions compare `3 == 3`. -/
theorem claim_C8_eval :
    (linearSystemNew [⟨[1, 2], 1⟩, ⟨[1, 2, 3], 1⟩]).isOk = true ∧
    (Plane.normal_vector ⟨[1, 2], 1⟩).length ≠
      (Plane.normal_vector ⟨[1, 2, 3], 1⟩).length ∧
    (LinearSystem.setitem ⟨[⟨[1, 2, 3], 1⟩]⟩ 0 ⟨[1, 2], 1⟩).isOk = true := by
  decide

/-- C5 (counterexample): the reduced form of the one-row system
`sysTinyLead` is `[(1e-9, 1, 0 | 1e5)]`: its first non-near-zero entry is
at column 0 with value `1e-9 ≠ 1` — scaling the recorded pivot (column 1)
to one lifted the near-zero entry on its left above epsilon.  The run's
arithmetic is exact in precision-30 `Decimal` (third conjunct) and its
comparisons are far from the float-`1e-10` threshold, so the program
produces exactly this row. -/
theorem claim_C5_counterexample :
    rrefClaimB sysTinyLead = false ∧
    sysTinyLead.compute_rref = some ⟨[⟨[1 / 10 ^ 9, 1, 0], 10 ^ 5⟩]⟩ ∧
    sysTinyLead.exactDecimalRun = true := by
  decide

/-- C7 (counterexample): constructing a hyperplane giving only the
dimension `0` fails with the configuration error, although a dimension
was given — Python's `not dimension` is true for `0`. -/
theorem claim_C7_counterexample :
    hyperplaneNew (some 0) none none =
      .error EITHER_DIM_OR_NORMAL_VEC_MUST_BE_PROVIDED_MSG := by decide

/-- If `Parametrization.__init__` rejects its arguments, the message is the
dimension-mismatch one. -/
theorem parametrizationNew_error_msg (bp : List ℚ) (dvs : List (List ℚ))
    (m : String) (h : parametrizationNew bp dvs = .error m) :
    m = BASEPT_AND_DIR_VECTORS_MUST_BE_IN_SAME_DIM := by
  unfold parametrizationNew at h
  split at h
  · cases h
  · cases h
    rfl

/-- C6: `compute_solution` returns the descriptive "No solutions" result —
and no error — exactly when the reduced form contains a row with an
all-near-zero normal vector and a non-near-zero constant term.  The
hypothesis restricts to well-formed dimension-3 rows, the domain on which
the embedding is faithful. -/
theorem claim_C6 (s : LinearSystem)
    (_hlen : ∀ p ∈ s.planes, p.normal_vector.length = 3) :
    s.compute_solution = .ok (.inl NO_SOLUTIONS_MSG) ↔
      ∃ r, s.compute_rref = some r ∧ r.contradictory_equation = true := by
  constructor
  · intro hsol
    unfold LinearSystem.compute_solution
      LinearSystem.do_gaussian_elimination_and_parametrization at hsol
    rcases h : s.compute_rref with _ | r
    · rw [h] at hsol
      dsimp only at hsol
      rw [if_neg (by decide)] at hsol
      cases hsol
    · rw [h] at hsol
      dsimp only at hsol
      by_cases hc : r.contradictory_equation
      · exact ⟨r, rfl, hc⟩
      · rw [Bool.not_eq_true] at hc
        rw [hc] at hsol
        simp only [Bool.false_eq_true, if_false] at hsol
        rcases hp : parametrizationNew r.extract_basepoint_for_parametrization
            r.extract_direction_vectors_for_parametrization with mErr | pOk
        · rw [hp] at hsol
          have hm := parametrizationNew_error_msg _ _ _ hp
          subst hm
          dsimp only at hsol
          rw [if_neg (by decide)] at hsol
          cases hsol
        · rw [hp] at hsol
          simp at hsol
  · rintro ⟨r, h, hc⟩
    unfold LinearSystem.compute_solution
      LinearSystem.do_gaussian_elimination_and_parametrization
    rw [h]
    dsimp only
    rw [hc]
    simp

/-- C6 witness: the claim's concrete contradictory system is classified
"No solutions" (via `claim_C6` applied at `sysContradictory`). -/
theorem claim_C6_witness :
    sysContradictory.compute_solution = .ok (.inl NO_SOLUTIONS_MSG) :=
  (claim_C6 sysContradictory (by decide)).mpr
    ⟨⟨[⟨[0, 0, 0], 0⟩, ⟨[0, 0, 0], 5⟩]⟩, by decide, by decide⟩

/-- Shifting the running index of the pivot scan. -/
theorem firstNonzeroAux_shift (v : List ℚ) (n : ℕ) :
    firstNonzeroAux v n = (firstNonzeroAux v 0).map (fun i => i + n) := by
  induction v generalizing n with
  | nil => rfl
  | cons x xs ih =>
      simp only [firstNonzeroAux]
      by_cases hx : isNearZero x
      · rw [if_pos hx, if_pos hx, ih (n + 1), ih 1, Option.map_map]
        congr 1
        funext i
        simp
        omega
      · rw [if_neg hx, if_neg hx]
        simp

/-- One-step unfolding of the pivot scan. -/
theorem firstNonzeroIndex_cons (x : ℚ) (xs : List ℚ) :
    firstNonzeroIndex (x :: xs) =
      if isNearZero x then (firstNonzeroIndex xs).map (fun i => i + 1)
      else some 0 := by
  by_cases hx : isNearZero x
  · rw [if_pos hx]
    show firstNonzeroAux (x :: xs) 0 = _
    simp only [firstNonzeroAux]
    rw [if_pos hx, firstNonzeroAux_shift xs 1]
    rfl
  · rw [if_neg hx]
    show firstNonzeroAux (x :: xs) 0 = _
    simp only [firstNonzeroAux]
    rw [if_neg hx]

/-- The pivot scan fails exactly on all-near-zero vectors. -/
theorem firstNonzeroIndex_none_iff (v : List ℚ) :
    firstNonzeroIndex v = none ↔ ∀ x ∈ v, isNearZero x = true := by
  induction v with
  | nil => simp [firstNonzeroIndex, firstNonzeroAux]
  | cons x xs ih =>
      rw [firstNonzeroIndex_cons]
      by_cases hx : isNearZero x
      · simp [hx, ih]
      · simp [hx]

/-- Full characterisation of a successful pivot scan. -/
theorem firstNonzeroIndex_some_iff (v : List ℚ) (i : ℕ) :
    firstNonzeroIndex v = some i ↔
      i < v.length ∧ isNearZero (v.getD i 0) = false ∧
        ∀ j, j < i → isNearZero (v.getD j 0) = true := by
  induction v generalizing i with
  | nil => simp [firstNonzeroIndex, firstNonzeroAux]
  | cons x xs ih =>
      rw [firstNonzeroIndex_cons]
      by_cases hx : isNearZero x
      · rw [if_pos hx]
        cases i with
        | zero => simp [hx]
        | succ n =>
            simp only [Option.map_eq_some']
            constructor
            · rintro ⟨a, ha, hEq⟩
              have han : a = n := by omega
              subst han
              have hc := (ih a).mp ha
              refine ⟨by simpa using hc.1, by simpa using hc.2.1, ?_⟩
              intro j hj
              cases j with
              | zero => simpa using hx
              | succ m => simpa using hc.2.2 m (by omega)
            · rintro ⟨h1, h2, h3⟩
              refine ⟨n, (ih n).mpr ⟨by simpa using h1, by simpa using h2, ?_⟩,
                by omega⟩
              intro m hm
              simpa using h3 (m + 1) (by omega)
      · rw [if_neg hx]
        cases i with
        | zero => simpa using hx
        | succ n =>
            simp only [Option.some.injEq]
            constructor
            · intro h
              cases h
            · rintro ⟨h1, h2, h3⟩
              have h0 := h3 0 (by omega)
              simp at h0
              exact absurd h0 hx

/-- The basepoint is undefined exactly when every normal-vector coordinate
is within epsilon of zero. -/
theorem set_basepoint_none_iff (h : Hyperplane) :
    h.set_basepoint = none ↔ ∀ x ∈ h.normal_vector, isNearZero x = true := by
  unfold Hyperplane.set_basepoint
  rw [Option.map_eq_none']
  exact firstNonzeroIndex_none_iff h.normal_vector

/-- When the pivot scan succeeds, the basepoint is the single-coordinate
point described by the spec. -/
theorem set_basepoint_some (h : Hyperplane) (i : ℕ)
    (hi : firstNonzeroIndex h.normal_vector = some i)
    (hdim : h.dimension = h.normal_vector.length) :
    ∃ bp, h.set_basepoint = some bp ∧ bp.length = h.dimension ∧
      ∀ j, j < h.dimension →
        bp.getD j 0 = if j = i
          then h.constant_term / h.normal_vector.getD i 0 else 0 := by
  have hlt : i < h.normal_vector.length :=
    ((firstNonzeroIndex_some_iff _ _).mp hi).1
  refine ⟨(List.replicate h.dimension (0 : ℚ)).set i
    (h.constant_term / h.normal_vector.getD i 0), ?_, ?_, ?_⟩
  · unfold Hyperplane.set_basepoint
    rw [hi]
    rfl
  · rw [List.length_set, List.length_replicate]
  · intro j hj
    by_cases hji : j = i
    · subst hji
      rw [if_pos rfl]
      rw [List.getD_eq_getElem _ _
        (by rwa [List.length_set, List.length_replicate])]
      rw [List.getElem_set_self]
    · rw [if_neg hji]
      rw [List.getD_eq_getElem _ _
        (by rw [List.length_set, List.length_replicate]; omega)]
      rw [List.getElem_set_ne (by omega)]
      simp

/-- C7 (amended): hyperplane construction fails with the configuration
error exactly when the dimension argument is missing or `0` (Python
falsiness) and no normal vector is given; otherwise it succeeds with the
documented defaults, and the cached basepoint has the single possibly
nonzero coordinate `constant_term / coefficient` at the first
non-near-zero index of the normal vector, and is undefined exactly when
every coordinate of the normal vector is within epsilon of zero. -/
theorem claim_C7 (dimension : Option ℤ) (normal_vector : Option (List ℚ))
    (constant_term : Option ℚ) :
    ((hyperplaneNew dimension normal_vector constant_term).isOk = true ↔
      ¬(dimFalsy dimension = true ∧ normal_vector = none)) ∧
    (∀ h, hyperplaneNew dimension normal_vector constant_term = .ok h →
      (h.normal_vector = match normal_vector with
        | some nv => nv
        | none => List.replicate (dimension.getD 0).toNat 0) ∧
      h.dimension = h.normal_vector.length ∧
      h.constant_term = constant_term.getD 0 ∧
      (h.set_basepoint = none ↔ ∀ x ∈ h.normal_vector, isNearZero x = true) ∧
      (∀ i, firstNonzeroIndex h.normal_vector = some i →
        ∃ bp, h.set_basepoint = some bp ∧ bp.length = h.dimension ∧
          ∀ j, j < h.dimension →
            bp.getD j 0 = if j = i
              then h.constant_term / h.normal_vector.getD i 0 else 0)) := by
  constructor
  · unfold hyperplaneNew
    by_cases hfail : dimFalsy dimension = true ∧ normal_vector = none
    · rw [if_pos hfail]
      simp [Except.isOk, Except.toBool, hfail]
    · rw [if_neg hfail]
      rcases normal_vector with _ | nv
      · simp only [ne_eq, and_true] at hfail
        simp [Except.isOk, Except.toBool, hfail]
      · simp [Except.isOk, Except.toBool, hfail]
  · intro h hok
    unfold hyperplaneNew at hok
    split at hok
    · cases hok
    · rcases normal_vector with _ | nv
      · cases hok
        refine ⟨by simp, by simp, rfl, set_basepoint_none_iff _, ?_⟩
        intro i hi
        exact set_basepoint_some _ i hi (by simp)
      · cases hok
        refine ⟨rfl, rfl, rfl, set_basepoint_none_iff _, ?_⟩
        intro i hi
        exact set_basepoint_some _ i hi rfl

/-- C7 witness: a construction given only a normal vector succeeds. -/
theorem claim_C7_witness :
    (hyperplaneNew none (some [1, 2]) (some 4)).isOk = true :=
  (claim_C7 none (some [1, 2]) (some 4)).1.mpr (by decide)

/-- The vector zero test, elementwise. -/
theorem visZero_eq_true_iff (v : List ℚ) :
    visZero v = true ↔ ∀ x ∈ v, isNearZero x = true := by
  unfold visZero
  rw [List.all_eq_true]

/-- A hyperplane with a not-all-near-zero normal vector has a basepoint. -/
theorem set_basepoint_isSome_of_not_visZero (h : Hyperplane)
    (hnz : ¬visZero h.normal_vector = true) :
    ∃ bp, h.set_basepoint = some bp := by
  rcases hfz : firstNonzeroIndex h.normal_vector with _ | i
  · rw [firstNonzeroIndex_none_iff] at hfz
    exact absurd ((visZero_eq_true_iff _).mpr hfz) hnz
  · exact ⟨_, by unfold Hyperplane.set_basepoint; rw [hfz]; rfl⟩

/-- C10: the coincidence test agrees with the four-case protocol on
well-formed hyperplanes, hyperplanes with normals `(1,2,3)`/`(2,4,6)` and
proportional constants are judged coincident, and with non-proportional
constants parallel but not coincident. -/
theorem claim_C10 :
    (∀ p q : Hyperplane,
      p.dimension = p.normal_vector.length →
      q.dimension = q.normal_vector.length →
      (Hyperplane.eq p q = true ↔ coincidenceProtocol p q)) ∧
    Hyperplane.eq ⟨3, [1, 2, 3], 5⟩ ⟨3, [2, 4, 6], 10⟩ = true ∧
    Hyperplane.eq ⟨3, [1, 2, 3], 1⟩ ⟨3, [2, 4, 6], 1⟩ = false ∧
    Hyperplane.is_parallel ⟨3, [1, 2, 3], 1⟩ ⟨3, [2, 4, 6], 1⟩ = true := by
  refine ⟨?_, by decide, by decide, by decide⟩
  intro p q _ _
  unfold Hyperplane.eq coincidenceProtocol
  by_cases h1 : visZero p.normal_vector
  · rw [if_pos h1, if_pos h1]
    by_cases h2 : visZero q.normal_vector
    · simp [h2]
    · simp [h2]
  · rw [if_neg h1, if_neg h1]
    by_cases h2 : visZero q.normal_vector
    · rw [if_pos h2, if_pos h2]
      simp
    · rw [if_neg h2, if_neg h2]
      by_cases h3 : p.is_parallel q
      · rw [if_neg (by simp [h3]), if_neg (by simp [h3])]
        obtain ⟨bp1, hbp1⟩ := set_basepoint_isSome_of_not_visZero p h1
        obtain ⟨bp2, hbp2⟩ := set_basepoint_isSome_of_not_visZero q h2
        rw [hbp1, hbp2]
        simp only [Option.getD_some]
        constructor
        · intro hor
          exact ⟨bp1, bp2, rfl, rfl, hor⟩
        · rintro ⟨b1, b2, hb1, hb2, hor⟩
          cases hb1
          cases hb2
          exact hor
      · rw [Bool.not_eq_true] at h3
        rw [if_pos (by simp [h3]), if_pos h3]
        simp

/-- C10 witness: the protocol instance for the coincident pair, obtained
through `claim_C10` at the concrete hyperplanes. -/
theorem claim_C10_witness :
    coincidenceProtocol ⟨3, [1, 2, 3], 5⟩ ⟨3, [2, 4, 6], 10⟩ :=
  (claim_C10.1 ⟨3, [1, 2, 3], 5⟩ ⟨3, [2, 4, 6], 10⟩ rfl rfl).mp (by decide)

theorem LinearSystem.row_set_self (planes : List Plane) (i : ℕ) (x : Plane)
    (h : i < planes.length) : LinearSystem.row ⟨planes.set i x⟩ i = x := by
  unfold LinearSystem.row
  rw [List.getD_eq_getElem?_getD, List.getElem?_set_self h]
  rfl

theorem LinearSystem.row_set_ne (planes : List Plane) (i k : ℕ) (x : Plane)
    (h : k ≠ i) :
    LinearSystem.row ⟨planes.set i x⟩ k = LinearSystem.row ⟨planes⟩ k := by
  unfold LinearSystem.row
  rw [List.getD_eq_getElem?_getD, List.getElem?_set_ne (Ne.symm h),
    ← List.getD_eq_getElem?_getD]

theorem swap_rows_row_eval (s : LinearSystem) (i j k : ℕ)
    (hi : i < s.planes.length) (hj : j < s.planes.length) :
    (s.swap_rows i j).row k =
      if k = i then s.row j else if k = j then s.row i else s.row k := by
  unfold LinearSystem.swap_rows
  by_cases hki : k = i
  · subst hki
    rw [if_pos rfl]
    exact LinearSystem.row_set_self _ _ _ (by simpa using hi)
  · rw [if_neg hki, LinearSystem.row_set_ne _ _ _ _ hki]
    by_cases hkj : k = j
    · subst hkj
      rw [if_pos rfl]
      exact LinearSystem.row_set_self _ _ _ hj
    · rw [if_neg hkj, LinearSystem.row_set_ne _ _ _ _ hkj]

theorem row_mem (s : LinearSystem) (i : ℕ) (hi : i < s.planes.length) :
    s.row i ∈ s.planes := by
  unfold LinearSystem.row
  rw [List.getD_eq_getElem?_getD, List.getElem?_eq_getElem hi]
  exact List.getElem_mem hi

theorem Store.read_write_ne (st : Store) (r q : ℕ) (pl : List Plane)
    (h : q ≠ r) : (st.write r pl).read q = st.read q := by
  unfold Store.read Store.write
  rw [List.getD_eq_getElem?_getD, List.getElem?_set_ne (Ne.symm h),
    ← List.getD_eq_getElem?_getD]

theorem Store.read_write_self (st : Store) (r : ℕ) (pl : List Plane)
    (h : r < st.length) : (st.write r pl).read r = pl := by
  unfold Store.read Store.write
  rw [List.getD_eq_getElem?_getD, List.getElem?_set_self h]
  rfl

theorem Store.write_length (st : Store) (r : ℕ) (pl : List Plane) :
    (st.write r pl).length = st.length := by
  unfold Store.write
  exact List.length_set st r pl

theorem Store.read_append_left (st : Store) (pl : List Plane) (q : ℕ)
    (h : q < st.length) : Store.read (st ++ [pl]) q = st.read q := by
  unfold Store.read
  rw [List.getD_eq_getElem?_getD, List.getElem?_append_left h,
    ← List.getD_eq_getElem?_getD]

theorem Store.read_append_self (st : Store) (pl : List Plane) :
    Store.read (st ++ [pl]) st.length = pl := by
  unfold Store.read
  rw [List.getD_eq_getElem?_getD, List.getElem?_concat_length]
  rfl

theorem foldl_addMultipleS_read_ne (l : List ℕ) (g : Store → ℕ → ℚ)
    (r row q : ℕ) (h : q ≠ r) (st : Store) :
    ((l.foldl (fun st2 k => addMultipleS st2 r (g st2 k) row k) st).read q)
      = st.read q := by
  induction l generalizing st with
  | nil => rfl
  | cons k l ih =>
      rw [List.foldl_cons, ih]
      exact Store.read_write_ne _ _ _ _ h

theorem foldl_sys_planes (l : List ℕ) (f : LinearSystem → ℕ → LinearSystem)
    (s : LinearSystem) :
    (l.foldl f s).planes = l.foldl (fun pl k => (f ⟨pl⟩ k).planes) s.planes := by
  induction l generalizing s with
  | nil => rfl
  | cons k l ih =>
      rw [List.foldl_cons, List.foldl_cons, ih]

theorem foldl_addMultipleS_agree (l : List ℕ) (g : List Plane → ℕ → ℚ)
    (r row : ℕ) (st : Store) (hr : r < st.length) :
    ((l.foldl (fun st2 k => addMultipleS st2 r (g (st2.read r) k) row k)
        st).read r
      = l.foldl (fun pl k =>
          (LinearSystem.add_multiple_times_row_to_row ⟨pl⟩ (g pl k) row k).planes)
        (st.read r)) ∧
    (l.foldl (fun st2 k => addMultipleS st2 r (g (st2.read r) k) row k)
        st).length = st.length := by
  induction l generalizing st with
  | nil => exact ⟨rfl, rfl⟩
  | cons k l ih =>
      rw [List.foldl_cons, List.foldl_cons]
      have hstep : (addMultipleS st r (g (st.read r) k) row k).read r =
          (LinearSystem.add_multiple_times_row_to_row ⟨st.read r⟩
            (g (st.read r) k) row k).planes :=
        Store.read_write_self _ _ _ hr
      have hlen : (addMultipleS st r (g (st.read r) k) row k).length
          = st.length := Store.write_length _ _ _
      have := ih (addMultipleS st r (g (st.read r) k) row k) (by omega)
      rw [hstep] at this
      exact ⟨this.1, by rw [this.2, hlen]⟩
theorem clearBelowS_spec (st : Store) (r row col : ℕ) (hr : r < st.length) :
    ((clearBelowS st r row col).read r
      = (LinearSystem.clear_coeffs_below ⟨st.read r⟩ row col).planes) ∧
    (clearBelowS st r row col).length = st.length ∧
    (∀ q, q ≠ r → (clearBelowS st r row col).read q = st.read q) := by
  unfold clearBelowS LinearSystem.clear_coeffs_below
  have h := foldl_addMultipleS_agree
    (List.range' (row + 1) ((st.read r).length - (row + 1)))
    (fun pl k => -(LinearSystem.entry ⟨pl⟩ k col) /
      LinearSystem.entry ⟨st.read r⟩ row col)
    r row st hr
  refine ⟨?_, h.2, ?_⟩
  · rw [h.1, foldl_sys_planes]
  · intro q hq
    exact foldl_addMultipleS_read_ne _
      (fun st2 k => -(LinearSystem.entry ⟨st2.read r⟩ k col) /
        LinearSystem.entry ⟨st.read r⟩ row col) r row q hq st
theorem clearAboveS_spec (st : Store) (r row col : ℕ) (hr : r < st.length) :
    ((clearAboveS st r row col).read r
      = (LinearSystem.clear_coefficients_above ⟨st.read r⟩ row col).planes) ∧
    (clearAboveS st r row col).length = st.length ∧
    (∀ q, q ≠ r → (clearAboveS st r row col).read q = st.read q) := by
  unfold clearAboveS LinearSystem.clear_coefficients_above
  have h := foldl_addMultipleS_agree (List.range row).reverse
    (fun pl k => -(LinearSystem.entry ⟨pl⟩ k col)) r row st hr
  refine ⟨?_, h.2, ?_⟩
  · rw [h.1, foldl_sys_planes]
  · intro q hq
    exact foldl_addMultipleS_read_ne _
      (fun st2 k => -(LinearSystem.entry ⟨st2.read r⟩ k col)) r row q hq st

theorem swapRowsS_spec (st : Store) (r i j : ℕ) (hr : r < st.length) :
    ((swapRowsS st r i j).read r
      = (LinearSystem.swap_rows ⟨st.read r⟩ i j).planes) ∧
    (swapRowsS st r i j).length = st.length ∧
    (∀ q, q ≠ r → (swapRowsS st r i j).read q = st.read q) :=
  ⟨Store.read_write_self _ _ _ hr, Store.write_length _ _ _,
    fun _ hq => Store.read_write_ne _ _ _ _ hq⟩

theorem multiplyS_spec (st : Store) (r : ℕ) (c : ℚ) (row : ℕ)
    (hr : r < st.length) :
    ((multiplyS st r c row).read r
      = (LinearSystem.multiply_coefficient_and_row ⟨st.read r⟩ c row).planes) ∧
    (multiplyS st r c row).length = st.length ∧
    (∀ q, q ≠ r → (multiplyS st r c row).read q = st.read q) :=
  ⟨Store.read_write_self _ _ _ hr, Store.write_length _ _ _,
    fun _ hq => Store.read_write_ne _ _ _ _ hq⟩

theorem swapBelowS_eq (st : Store) (r row col : ℕ) :
    swapBelowS st r row col =
      match LinearSystem.swap_with_row_below_for_nonzero_coefficient
          ⟨st.read r⟩ row col with
      | some sys2 => some (st.write r sys2.planes)
      | none => none := by
  unfold swapBelowS LinearSystem.swap_with_row_below_for_nonzero_coefficient
  dsimp only
  rcases hf : (List.range' (row + 1) ((Store.read st r).length - (row + 1))).find?
      (fun k => !isNearZero (LinearSystem.entry ⟨Store.read st r⟩ k col))
      with _ | k
  · rfl
  · rfl
theorem ctfGoS_spec (fuel : ℕ) (st : Store) (r n_eq n_vars row col : ℕ)
    (hr : r < st.length) :
    ((ctfGoS fuel st r n_eq n_vars row col).read r
      = (ctfGo fuel ⟨st.read r⟩ n_eq n_vars row col).planes) ∧
    (ctfGoS fuel st r n_eq n_vars row col).length = st.length ∧
    (∀ q, q ≠ r →
      (ctfGoS fuel st r n_eq n_vars row col).read q = st.read q) := by
  induction fuel generalizing st row col with
  | zero => exact ⟨rfl, rfl, fun _ _ => rfl⟩
  | succ fuel ih =>
      simp only [ctfGoS, ctfGo]
      by_cases h1 : row < n_eq
      · rw [if_pos h1, if_pos h1]
        by_cases h2 : col < n_vars
        · rw [if_pos h2, if_pos h2]
          by_cases h3 : isNearZero (LinearSystem.entry ⟨st.read r⟩ row col)
          · rw [if_pos h3, if_pos h3]
            rw [swapBelowS_eq]
            rcases hsw : LinearSystem.swap_with_row_below_for_nonzero_coefficient
                ⟨st.read r⟩ row col with _ | sys2
            · exact ih st row (col + 1) hr
            · have hw : (st.write r sys2.planes).read r = sys2.planes :=
                Store.read_write_self _ _ _ hr
              have hwl : (st.write r sys2.planes).length = st.length :=
                Store.write_length _ _ _
              have hcb := clearBelowS_spec (st.write r sys2.planes) r row col
                (by omega)
              have hrec := ih (clearBelowS (st.write r sys2.planes) r row col)
                (row + 1) (col + 1) (by rw [hcb.2.1]; omega)
              refine ⟨?_, ?_, ?_⟩
              · rw [hrec.1, hcb.1, hw]
              · rw [hrec.2.1, hcb.2.1, hwl]
              · intro q hq
                rw [hrec.2.2 q hq, hcb.2.2 q hq,
                  Store.read_write_ne _ _ _ _ hq]
          · rw [if_neg h3, if_neg h3]
            have hcb := clearBelowS_spec st r row col hr
            have hrec := ih (clearBelowS st r row col) (row + 1) (col + 1)
              (by rw [hcb.2.1]; omega)
            refine ⟨?_, ?_, ?_⟩
            · rw [hrec.1, hcb.1]
            · rw [hrec.2.1, hcb.2.1]
            · intro q hq
              rw [hrec.2.2 q hq, hcb.2.2 q hq]
        · rw [if_neg h2, if_neg h2]
          exact ih st (row + 1) col hr
      · rw [if_neg h1, if_neg h1]
        exact ⟨rfl, rfl, fun _ _ => rfl⟩
theorem rrefGoS_spec (pivots : List ℤ) (m : ℕ) (st : Store) (r : ℕ)
    (hr : r < st.length) :
    (rrefGoS pivots st r m = none ∧ rrefGo pivots ⟨st.read r⟩ m = none) ∨
    (∃ st2 sys2, rrefGoS pivots st r m = some st2 ∧
      rrefGo pivots ⟨st.read r⟩ m = some sys2 ∧
      st2.read r = sys2.planes ∧ st2.length = st.length ∧
      ∀ q, q ≠ r → st2.read q = st.read q) := by
  induction m generalizing st with
  | zero =>
      exact Or.inr ⟨st, ⟨st.read r⟩, rfl, rfl, rfl, rfl, fun _ _ => rfl⟩
  | succ m ih =>
      simp only [rrefGoS, rrefGo]
      by_cases hpv : pivots.getD m (-1) < 0
      · rw [if_pos hpv, if_pos hpv]
        exact ih st hr
      · rw [if_neg hpv, if_neg hpv]
        unfold LinearSystem.scale_row_to_make_coefficient_equal_one
        dsimp only
        by_cases hc : LinearSystem.entry ⟨st.read r⟩ m
            (pivots.getD m (-1)).toNat = 0
        · rw [if_pos hc, if_pos hc]
          exact Or.inl ⟨rfl, rfl⟩
        · rw [if_neg hc, if_neg hc]
          have hm := multiplyS_spec st r
            (1 / LinearSystem.entry ⟨st.read r⟩ m (pivots.getD m (-1)).toNat)
            m hr
          have hca := clearAboveS_spec
            (multiplyS st r
              (1 / LinearSystem.entry ⟨st.read r⟩ m
                (pivots.getD m (-1)).toNat) m)
            r m (pivots.getD m (-1)).toNat (by rw [hm.2.1]; exact hr)
          have hrec := ih
            (clearAboveS
              (multiplyS st r
                (1 / LinearSystem.entry ⟨st.read r⟩ m
                  (pivots.getD m (-1)).toNat) m)
              r m (pivots.getD m (-1)).toNat)
            (by rw [hca.2.1, hm.2.1]; exact hr)
          have hread : (clearAboveS
              (multiplyS st r
                (1 / LinearSystem.entry ⟨st.read r⟩ m
                  (pivots.getD m (-1)).toNat) m)
              r m (pivots.getD m (-1)).toNat).read r
            = (LinearSystem.clear_coefficients_above
                (LinearSystem.multiply_coefficient_and_row ⟨st.read r⟩
                  (1 / LinearSystem.entry ⟨st.read r⟩ m
                    (pivots.getD m (-1)).toNat) m)
                m (pivots.getD m (-1)).toNat).planes := by
            rw [hca.1, hm.1]
          rcases hrec with ⟨hs1, hs2⟩ | ⟨st2, sys2, h1, h2, h3, h4, h5⟩
          · refine Or.inl ⟨hs1, ?_⟩
            rw [hread] at hs2
            exact hs2
          · refine Or.inr ⟨st2, sys2, h1, ?_, h3, ?_, ?_⟩
            · rw [hread] at h2
              exact h2
            · rw [h4, hca.2.1, hm.2.1]
            · intro q hq
              rw [h5 q hq, hca.2.2 q hq, hm.2.2 q hq]
theorem computeTriangularFormS_spec (st : Store) (r : ℕ) (_hr : r < st.length) :
    (computeTriangularFormS st r).2 = st.length ∧
    (computeTriangularFormS st r).1.length = st.length + 1 ∧
    (computeTriangularFormS st r).1.read (computeTriangularFormS st r).2
      = (LinearSystem.compute_triangular_form ⟨st.read r⟩).planes ∧
    (∀ q, q < st.length →
      (computeTriangularFormS st r).1.read q = st.read q) := by
  have hcopy : Store.read (st ++ [st.read r]) st.length = st.read r :=
    Store.read_append_self st _
  have hlen : st.length < (st ++ [st.read r]).length := by
    rw [List.length_append]
    simp
  have hspec := ctfGoS_spec ((st.read r).length + 3 + 1) (st ++ [st.read r])
    st.length ((st.read r).length) 3 0 0 hlen
  refine ⟨rfl, ?_, ?_, ?_⟩
  · show (ctfGoS _ (st ++ [st.read r]) st.length _ 3 0 0).length = st.length + 1
    rw [hspec.2.1, List.length_append]
    rfl
  · show (ctfGoS _ (st ++ [st.read r]) st.length _ 3 0 0).read st.length = _
    rw [hspec.1, hcopy]
    rfl
  · intro q hq
    show (ctfGoS _ (st ++ [st.read r]) st.length _ 3 0 0).read q = _
    rw [hspec.2.2 q (by omega), Store.read_append_left st _ q hq]
/-- C9: in the store (object/reference) model, `compute_triangular_form`
and `compute_rref` never change the caller's object: they allocate a deep
copy at a fresh reference, mutate only the copy, and the copy holds
exactly the value the pure pipeline computes from the caller's rows. -/
theorem claim_C9 (st : Store) (r : ℕ) (hr : r < st.length) :
    ((computeTriangularFormS st r).1.read r = st.read r ∧
     (computeTriangularFormS st r).2 ≠ r ∧
     (computeTriangularFormS st r).1.read (computeTriangularFormS st r).2
       = (LinearSystem.compute_triangular_form ⟨st.read r⟩).planes) ∧
    (∀ st2 tr, computeRrefS st r = some (st2, tr) →
      st2.read r = st.read r ∧ tr ≠ r ∧
      LinearSystem.compute_rref ⟨st.read r⟩ = some ⟨st2.read tr⟩) := by
  have hctf := computeTriangularFormS_spec st r hr
  refine ⟨⟨hctf.2.2.2 r hr, by rw [hctf.1]; omega, hctf.2.2.1⟩, ?_⟩
  intro st2 tr hsome
  unfold computeRrefS at hsome
  rw [Option.map_eq_some'] at hsome
  obtain ⟨st3, hrgo, hpair⟩ := hsome
  injection hpair with hst3 htr
  subst hst3
  subst htr
  have hlt : (computeTriangularFormS st r).2
      < (computeTriangularFormS st r).1.length := by
    rw [hctf.1, hctf.2.1]
    omega
  have hspec := rrefGoS_spec
    (LinearSystem.indices_of_first_nonzero_terms_in_each_row
      ⟨(computeTriangularFormS st r).1.read (computeTriangularFormS st r).2⟩)
    (((computeTriangularFormS st r).1.read
        (computeTriangularFormS st r).2).length)
    (computeTriangularFormS st r).1 (computeTriangularFormS st r).2 hlt
  rcases hspec with ⟨hn, _⟩ | ⟨st4, sys4, h1, h2, h3, h4, h5⟩
  · rw [hn] at hrgo
    cases hrgo
  · rw [h1] at hrgo
    injection hrgo with hst4
    subst hst4
    refine ⟨?_, by rw [hctf.1]; omega, ?_⟩
    · rw [h5 r (by rw [hctf.1]; omega), hctf.2.2.2 r hr]
    · have heq : (⟨st4.read (computeTriangularFormS st r).2⟩ : LinearSystem)
          = sys4 := by
        rw [h3]
      rw [heq]
      rw [hctf.2.2.1] at h2
      unfold LinearSystem.compute_rref
      exact h2


/-- C9 witness: solving the concrete system through the store model leaves
the original object's rows unchanged (via `claim_C9`). -/
theorem claim_C9_witness :
    Store.read (computeTriangularFormS [sysUnique.planes] 0).1 0
      = Store.read [sysUnique.planes] 0 :=
  (claim_C9 [sysUnique.planes] 0 (by decide)).1.1


theorem isNearZero_zero : isNearZero 0 = true := by decide

theorem isNearZero_one : isNearZero 1 = false := by decide

theorem ne_zero_of_not_nearZero {x : ℚ} (h : isNearZero x = false) : x ≠ 0 := by
  intro h0
  subst h0
  rw [isNearZero_zero] at h
  cases h

theorem vadd_getD (v w : List ℚ) (j : ℕ) (h : v.length = w.length) :
    (vadd v w).getD j 0 = v.getD j 0 + w.getD j 0 := by
  induction v generalizing w j with
  | nil =>
      cases w with
      | nil => simp [vadd]
      | cons b w => cases h
  | cons a v ih =>
      cases w with
      | nil => cases h
      | cons b w =>
          cases j with
          | zero => simp [vadd]
          | succ j =>
              simp only [vadd, List.zipWith_cons_cons, List.getD_cons_succ]
              exact ih w j (by simpa using h)

theorem vscale_getD (c : ℚ) (v : List ℚ) (j : ℕ) :
    (vscale c v).getD j 0 = c * v.getD j 0 := by
  induction v generalizing j with
  | nil => simp [vscale]
  | cons a v ih =>
      cases j with
      | zero => simp [vscale]
      | succ j =>
          simp only [vscale, List.map_cons, List.getD_cons_succ]
          exact ih j

theorem vadd_length (v w : List ℚ) : (vadd v w).length = min v.length w.length :=
  List.length_zipWith _ _ _

theorem vscale_length (c : ℚ) (v : List ℚ) : (vscale c v).length = v.length :=
  List.length_map _ _

theorem getD_eq_zero_of_ge (v : List ℚ) (j : ℕ) (h : v.length ≤ j) :
    v.getD j 0 = 0 := by
  rw [List.getD_eq_getElem?_getD, List.getElem?_eq_none h]
  rfl

theorem pivotOf_none_of_all_zero (s : LinearSystem) (r : ℕ)
    (h : ∀ j, s.entry r j = 0) : s.pivotOf r = none := by
  unfold LinearSystem.pivotOf
  rw [firstNonzeroIndex_none_iff]
  intro x hx
  obtain ⟨j, hj, rfl⟩ := List.mem_iff_getElem.mp hx
  have := h j
  unfold LinearSystem.entry at this
  rw [List.getD_eq_getElem?_getD, List.getElem?_eq_getElem hj] at this
  simp only [Option.getD_some] at this
  rw [this]
  exact isNearZero_zero

theorem pivotOf_some_intro (s : LinearSystem) (r i : ℕ)
    (hi : i < (s.row r).normal_vector.length)
    (hnz : isNearZero (s.entry r i) = false)
    (hz : ∀ j, j < i → s.entry r j = 0) : s.pivotOf r = some i := by
  unfold LinearSystem.pivotOf
  rw [firstNonzeroIndex_some_iff]
  refine ⟨hi, hnz, ?_⟩
  intro j hj
  have := hz j hj
  unfold LinearSystem.entry at this
  rw [this]
  exact isNearZero_zero

theorem pivotOf_some_elim (s : LinearSystem) (r i : ℕ)
    (h : s.pivotOf r = some i) :
    i < (s.row r).normal_vector.length ∧
    isNearZero (s.entry r i) = false ∧
    ∀ j, j < i → isNearZero (s.entry r j) = true := by
  unfold LinearSystem.pivotOf at h
  rw [firstNonzeroIndex_some_iff] at h
  exact h
theorem addfold_spec (l : List ℕ) (g : Plane → ℚ) (row : ℕ)
    (s : LinearSystem) (hl : ∀ k ∈ l, k ≠ row) (hd : l.Nodup) :
    (l.foldl (fun sys k =>
        sys.add_multiple_times_row_to_row (g (sys.row k)) row k) s).planes.length
      = s.planes.length ∧
    (∀ k, k ∉ l →
      (l.foldl (fun sys k =>
        sys.add_multiple_times_row_to_row (g (sys.row k)) row k) s).row k
        = s.row k) ∧
    (∀ k ∈ l, k < s.planes.length →
      (l.foldl (fun sys k =>
        sys.add_multiple_times_row_to_row (g (sys.row k)) row k) s).row k
        = ⟨vadd (vscale (g (s.row k)) (s.row row).normal_vector)
            (s.row k).normal_vector,
           (s.row row).constant_term * g (s.row k) + (s.row k).constant_term⟩) := by
  induction l generalizing s with
  | nil => exact ⟨rfl, fun _ _ => rfl, fun k hk => absurd hk (List.not_mem_nil k)⟩
  | cons k0 l ih =>
      rw [List.foldl_cons]
      have hk0row : k0 ≠ row := hl k0 (List.mem_cons_self k0 l)
      have hd2 := (List.nodup_cons.mp hd).2
      have hk0l : k0 ∉ l := (List.nodup_cons.mp hd).1
      have hl2 : ∀ k ∈ l, k ≠ row := fun k hk => hl k (List.mem_cons_of_mem k0 hk)
      set s1 := s.add_multiple_times_row_to_row (g (s.row k0)) row k0 with hs1
      have hlen1 : s1.planes.length = s.planes.length := by
        rw [hs1]
        unfold LinearSystem.add_multiple_times_row_to_row
        exact List.length_set _ _ _
      have hrow1_ne : ∀ k, k ≠ k0 → s1.row k = s.row k := by
        intro k hk
        rw [hs1]
        exact LinearSystem.row_set_ne _ _ _ _ hk
      have hrow1_row : s1.row row = s.row row := hrow1_ne row (Ne.symm hk0row)
      have hih := ih s1 hl2 hd2
      refine ⟨by rw [hih.1, hlen1], ?_, ?_⟩
      · intro k hk
        have hknk0 : k ≠ k0 := fun h => hk (h ▸ List.mem_cons_self k0 l)
        have hknl : k ∉ l := fun h => hk (List.mem_cons_of_mem k0 h)
        rw [hih.2.1 k hknl, hrow1_ne k hknk0]
      · intro k hk hklt
        rcases List.mem_cons.mp hk with rfl | hkl
        · rw [hih.2.1 k hk0l, hs1]
          unfold LinearSystem.add_multiple_times_row_to_row
          exact LinearSystem.row_set_self _ _ _ hklt
        · have hgoal := hih.2.2 k hkl (by rw [hlen1]; exact hklt)
          rw [hgoal, hrow1_row, hrow1_ne k (fun h => hk0l (h ▸ hkl))]
theorem clear_coeffs_below_rows (s : LinearSystem) (row col : ℕ) :
    (s.clear_coeffs_below row col).planes.length = s.planes.length ∧
    (∀ k, k ≤ row ∨ s.planes.length ≤ k →
      (s.clear_coeffs_below row col).row k = s.row k) ∧
    (∀ k, row < k → k < s.planes.length →
      (s.clear_coeffs_below row col).row k =
        ⟨vadd (vscale (-(s.entry k col) / s.entry row col)
            (s.row row).normal_vector) (s.row k).normal_vector,
         (s.row row).constant_term * (-(s.entry k col) / s.entry row col)
           + (s.row k).constant_term⟩) := by
  have hmem : ∀ k, k ∈ List.range' (row + 1) (s.planes.length - (row + 1)) ↔
      (row < k ∧ k < s.planes.length) := by
    intro k
    rw [List.mem_range']
    constructor
    · rintro ⟨i, hi, rfl⟩
      omega
    · intro h
      exact ⟨k - (row + 1), by omega, by omega⟩
  have h := addfold_spec (List.range' (row + 1) (s.planes.length - (row + 1)))
    (fun p => -(p.normal_vector.getD col 0) / s.entry row col) row s
    (by
      intro k hk
      rw [hmem] at hk
      omega)
    (List.nodup_range' _ _)
  refine ⟨h.1, ?_, ?_⟩
  · intro k hk
    refine h.2.1 k ?_
    rw [hmem]
    omega
  · intro k hk1 hk2
    exact h.2.2 k ((hmem k).mpr ⟨hk1, hk2⟩) hk2

theorem clear_coefficients_above_rows (s : LinearSystem) (row col : ℕ) :
    (s.clear_coefficients_above row col).planes.length = s.planes.length ∧
    (∀ k, row ≤ k → (s.clear_coefficients_above row col).row k = s.row k) ∧
    (∀ k, k < row → k < s.planes.length →
      (s.clear_coefficients_above row col).row k =
        ⟨vadd (vscale (-(s.entry k col)) (s.row row).normal_vector)
            (s.row k).normal_vector,
         (s.row row).constant_term * (-(s.entry k col))
           + (s.row k).constant_term⟩) := by
  have hmem : ∀ k, k ∈ (List.range row).reverse ↔ k < row := by
    intro k
    rw [List.mem_reverse, List.mem_range]
  have h := addfold_spec (List.range row).reverse
    (fun p => -(p.normal_vector.getD col 0)) row s
    (by
      intro k hk
      rw [hmem] at hk
      omega)
    (List.nodup_reverse.mpr (List.nodup_range row))
  refine ⟨h.1, ?_, ?_⟩
  · intro k hk
    refine h.2.1 k ?_
    rw [hmem]
    omega
  · intro k hk1 hk2
    exact h.2.2 k ((hmem k).mpr hk1) hk2
theorem swap_rows_length (s : LinearSystem) (i j : ℕ) :
    (s.swap_rows i j).planes.length = s.planes.length := by
  unfold LinearSystem.swap_rows
  rw [List.length_set, List.length_set]

theorem rows_nvlen_iff (s : LinearSystem) (n_vars : ℕ) :
    (∀ p ∈ s.planes, p.normal_vector.length = n_vars) ↔
      (∀ k, k < s.planes.length → (s.row k).normal_vector.length = n_vars) := by
  constructor
  · intro h k hk
    exact h _ (row_mem s k hk)
  · intro h p hp
    obtain ⟨i, hi, rfl⟩ := List.mem_iff_getElem.mp hp
    have hrow : LinearSystem.row s i = s.planes[i] := by
      unfold LinearSystem.row
      rw [List.getD_eq_getElem?_getD, List.getElem?_eq_getElem hi]
      rfl
    rw [← hrow]
    exact h i hi

theorem clean_entry (s : LinearSystem) (hclean : cleanSys s = true) (k j : ℕ)
    (hk : k < s.planes.length) (hnz : isNearZero (s.entry k j) = true) :
    s.entry k j = 0 := by
  by_cases hj : j < (s.row k).normal_vector.length
  · unfold cleanSys at hclean
    rw [List.all_eq_true] at hclean
    have hall := hclean _ (row_mem s k hk)
    rw [List.all_eq_true] at hall
    have hx := hall ((s.row k).normal_vector.getD j 0)
      (by
        rw [List.getD_eq_getElem?_getD, List.getElem?_eq_getElem hj]
        exact List.getElem_mem hj)
    rcases Bool.or_eq_true _ _ |>.mp hx with h0 | hfar
    · exact of_decide_eq_true h0
    · unfold LinearSystem.entry at hnz
      rw [Bool.not_eq_true'] at hfar
      rw [hfar] at hnz
      cases hnz
  · exact getD_eq_zero_of_ge _ _ (by omega)

theorem swap_preserves_nvlen (s : LinearSystem) (i j : ℕ) (n_vars : ℕ)
    (hi : i < s.planes.length) (hj : j < s.planes.length)
    (h : ∀ p ∈ s.planes, p.normal_vector.length = n_vars) :
    ∀ p ∈ (s.swap_rows i j).planes, p.normal_vector.length = n_vars := by
  intro p hp
  unfold LinearSystem.swap_rows at hp
  rcases List.mem_or_eq_of_mem_set hp with hp2 | rfl
  · rcases List.mem_or_eq_of_mem_set hp2 with hp3 | rfl
    · exact h p hp3
    · exact h _ (row_mem s i hi)
  · exact h _ (row_mem s j hj)
theorem pivotOf_congr (s1 s2 : LinearSystem) (r : ℕ)
    (h : s1.row r = s2.row r) : s1.pivotOf r = s2.pivotOf r := by
  unfold LinearSystem.pivotOf
  rw [h]

theorem entry_congr (s1 s2 : LinearSystem) (r : ℕ)
    (h : s1.row r = s2.row r) (j : ℕ) : s1.entry r j = s2.entry r j := by
  unfold LinearSystem.entry
  rw [h]

theorem ctfInv_swap (sys : LinearSystem) (n_eq n_vars row col k0 : ℕ)
    (hinv : ctfInv sys n_eq n_vars row col)
    (hrow : row < n_eq) (hk0a : row < k0) (hk0b : k0 < n_eq) :
    ctfInv (sys.swap_rows row k0) n_eq n_vars row col := by
  obtain ⟨h1, h2, h3, h4, h5, h6, h7, h8, h9⟩ := hinv
  have hrl : row < sys.planes.length := by omega
  have hkl : k0 < sys.planes.length := by omega
  have heval := fun k => swap_rows_row_eval sys row k0 k hrl hkl
  have hfroz : ∀ r, r < row → (sys.swap_rows row k0).row r = sys.row r := by
    intro r hr
    rw [heval r, if_neg (by omega), if_neg (by omega)]
  have hentry : ∀ k j, (sys.swap_rows row k0).entry k j =
      if k = row then sys.entry k0 j
      else if k = k0 then sys.entry row j else sys.entry k j := by
    intro k j
    unfold LinearSystem.entry
    rw [heval k]
    by_cases hk1 : k = row
    · rw [if_pos hk1, if_pos hk1]
    · rw [if_neg hk1, if_neg hk1]
      by_cases hk2 : k = k0
      · rw [if_pos hk2, if_pos hk2]
      · rw [if_neg hk2, if_neg hk2]
  refine ⟨by rw [swap_rows_length]; exact h1,
    swap_preserves_nvlen sys row k0 n_vars hrl hkl h2, ?_, ?_, ?_, ?_, ?_, ?_, ?_⟩
  · intro k hk1 hk2 j hj
    rw [hentry]
    by_cases hkr : k = row
    · rw [if_pos hkr]
      exact h3 k0 (by omega) (by omega) j hj
    · rw [if_neg hkr]
      by_cases hkk : k = k0
      · rw [if_pos hkk]
        exact h3 row (by omega) (by omega) j hj
      · rw [if_neg hkk]
        exact h3 k hk1 hk2 j hj
  · intro r1 r2 hlt hr2 hr2n hp1
    rw [pivotOf_congr _ sys r2 (hfroz r2 hr2)]
    rw [pivotOf_congr _ sys r1 (hfroz r1 (by omega))] at hp1
    exact h4 r1 r2 hlt hr2 hr2n hp1
  · intro r1 r2 p1 p2 hlt hr2 hr2n hp1 hp2
    rw [pivotOf_congr _ sys r1 (hfroz r1 (by omega))] at hp1
    rw [pivotOf_congr _ sys r2 (hfroz r2 hr2)] at hp2
    exact h5 r1 r2 p1 p2 hlt hr2 hr2n hp1 hp2
  · intro r p hr hrn hp
    rw [pivotOf_congr _ sys r (hfroz r hr)] at hp
    exact h6 r p hr hrn hp
  · intro r hr hrn hp
    rw [pivotOf_congr _ sys r (hfroz r hr)] at hp
    exact h7 r hr hrn hp
  · intro r p hr hrn hp
    rw [pivotOf_congr _ sys r (hfroz r hr)] at hp
    obtain ⟨ha, hb⟩ := h8 r p hr hrn hp
    constructor
    · intro j hj
      rw [entry_congr _ sys r (hfroz r hr)]
      exact ha j hj
    · intro k hk1 hk2
      rw [hentry]
      by_cases hkr : k = row
      · rw [if_pos hkr]
        exact hb k0 (by omega) (by omega)
      · rw [if_neg hkr]
        by_cases hkk : k = k0
        · rw [if_pos hkk]
          exact hb row (by omega) (by omega)
        · rw [if_neg hkk]
          exact hb k hk1 hk2
  · intro r hr hrn hp j
    rw [pivotOf_congr _ sys r (hfroz r hr)] at hp
    rw [entry_congr _ sys r (hfroz r hr)]
    exact h9 r hr hrn hp j
theorem ctfInv_step (sys1 : LinearSystem) (n_eq n_vars row col : ℕ)
    (hinv : ctfInv sys1 n_eq n_vars row col)
    (hrow : row < n_eq) (hcol : col < n_vars)
    (hnz : isNearZero (sys1.entry row col) = false) :
    ctfInv (sys1.clear_coeffs_below row col) n_eq n_vars (row + 1) (col + 1) := by
  obtain ⟨h1, h2, h3, h4, h5, h6, h7, h8, h9⟩ := hinv
  have hβ : sys1.entry row col ≠ 0 := ne_zero_of_not_nearZero hnz
  have hcr := clear_coeffs_below_rows sys1 row col
  have hnvlen1 : ∀ k, k < n_eq → (sys1.row k).normal_vector.length = n_vars := by
    intro k hk
    exact ((rows_nvlen_iff sys1 n_vars).mp h2) k (by omega)
  have hfroz : ∀ k, k ≤ row →
      (sys1.clear_coeffs_below row col).row k = sys1.row k :=
    fun k hk => hcr.2.1 k (Or.inl hk)
  have h_e : ∀ k j, row < k → k < n_eq →
      (sys1.clear_coeffs_below row col).entry k j =
        (-(sys1.entry k col) / sys1.entry row col) * sys1.entry row j
          + sys1.entry k j := by
    intro k j hk1 hk2
    show ((sys1.clear_coeffs_below row col).row k).normal_vector.getD j 0 = _
    rw [hcr.2.2 k hk1 (by omega)]
    show (vadd (vscale (-(sys1.entry k col) / sys1.entry row col)
      (sys1.row row).normal_vector) (sys1.row k).normal_vector).getD j 0 = _
    rw [vadd_getD _ _ _
      (by rw [vscale_length, hnvlen1 row hrow, hnvlen1 k hk2]), vscale_getD]
    rfl
  have hcleared : ∀ k, row < k → k < n_eq →
      (sys1.clear_coeffs_below row col).entry k col = 0 := by
    intro k hk1 hk2
    rw [h_e k col hk1 hk2]
    field_simp
  have hrow_pivot : (sys1.clear_coeffs_below row col).pivotOf row = some col := by
    apply pivotOf_some_intro
    · rw [hfroz row (le_refl row), hnvlen1 row hrow]
      exact hcol
    · rw [entry_congr _ sys1 row (hfroz row (le_refl row))]
      exact hnz
    · intro j hj
      rw [entry_congr _ sys1 row (hfroz row (le_refl row))]
      exact h3 row (le_refl row) hrow j hj
  have hzb : ∀ k, row + 1 ≤ k → k < n_eq → ∀ j, j < col + 1 →
      (sys1.clear_coeffs_below row col).entry k j = 0 := by
    intro k hk1 hk2 j hj
    by_cases hjc : j = col
    · subst hjc
      exact hcleared k (by omega) hk2
    · rw [h_e k j (by omega) hk2, h3 row (le_refl row) hrow j (by omega),
        h3 k (by omega) hk2 j (by omega)]
      ring
  have hpfroz : ∀ r, r ≤ row →
      (sys1.clear_coeffs_below row col).pivotOf r = sys1.pivotOf r :=
    fun r hr => pivotOf_congr _ sys1 r (hfroz r hr)
  refine ⟨by rw [hcr.1]; exact h1, ?_, hzb, ?_, ?_, ?_, ?_, ?_, ?_⟩
  · rw [rows_nvlen_iff]
    intro k hk
    rw [hcr.1, h1] at hk
    by_cases hkr : k ≤ row
    · rw [hfroz k hkr]
      exact hnvlen1 k (by omega)
    · rw [hcr.2.2 k (by omega) (by omega)]
      show (vadd (vscale _ (sys1.row row).normal_vector)
        (sys1.row k).normal_vector).length = n_vars
      rw [vadd_length, vscale_length, hnvlen1 row hrow, hnvlen1 k (by omega),
        min_self]
  · intro r1 r2 hlt hr2 hr2n hp1
    have hr1row : r1 ≤ row := by omega
    rw [hpfroz r1 hr1row] at hp1
    by_cases hr2row : r2 = row
    · subst hr2row
      exact absurd (h7 r1 (by omega) (by omega) hp1) (by omega)
    · rw [hpfroz r2 (by omega)]
      exact h4 r1 r2 hlt (by omega) hr2n hp1
  · intro r1 r2 p1 p2 hlt hr2 hr2n hp1 hp2
    rw [hpfroz r1 (by omega)] at hp1
    by_cases hr2row : r2 = row
    · subst hr2row
      rw [hrow_pivot] at hp2
      injection hp2 with hp2
      subst hp2
      exact h6 r1 p1 (by omega) (by omega) hp1
    · rw [hpfroz r2 (by omega)] at hp2
      exact h5 r1 r2 p1 p2 hlt (by omega) hr2n hp1 hp2
  · intro r p hr hrn hp
    by_cases hrrow : r = row
    · subst hrrow
      rw [hrow_pivot] at hp
      injection hp with hp
      omega
    · rw [hpfroz r (by omega)] at hp
      have := h6 r p (by omega) hrn hp
      omega
  · intro r hr hrn hp
    by_cases hrrow : r = row
    · subst hrrow
      rw [hrow_pivot] at hp
      cases hp
    · rw [hpfroz r (by omega)] at hp
      have := h7 r (by omega) hrn hp
      omega
  · intro r p hr hrn hp
    by_cases hrrow : r = row
    · subst hrrow
      rw [hrow_pivot] at hp
      injection hp with hp
      subst hp
      constructor
      · intro j hj
        rw [entry_congr _ sys1 r (hfroz r (le_refl r))]
        exact h3 r (le_refl r) hrn j hj
      · intro k hk1 hk2
        exact hcleared k hk1 hk2
    · rw [hpfroz r (by omega)] at hp
      obtain ⟨ha, hb⟩ := h8 r p (by omega) hrn hp
      constructor
      · intro j hj
        rw [entry_congr _ sys1 r (hfroz r (by omega))]
        exact ha j hj
      · intro k hk1 hk2
        by_cases hkrow : k ≤ row
        · rw [entry_congr _ sys1 k (hfroz k hkrow)]
          exact hb k hk1 hk2
        · rw [h_e k p (by omega) hk2, hb row (by omega) (by omega),
            hb k hk1 hk2]
          ring
  · intro r hr hrn hp
    by_cases hrrow : r = row
    · subst hrrow
      rw [hrow_pivot] at hp
      cases hp
    · rw [hpfroz r (by omega)] at hp
      have := h7 r (by omega) hrn hp
      omega
theorem ctfInv_colExhausted (sys : LinearSystem) (n_eq n_vars row col : ℕ)
    (hinv : ctfInv sys n_eq n_vars row col)
    (hrow : row < n_eq) (hcol : n_vars ≤ col) :
    ctfInv sys n_eq n_vars (row + 1) col := by
  obtain ⟨h1, h2, h3, h4, h5, h6, h7, h8, h9⟩ := hinv
  have hrowzero : ∀ j, sys.entry row j = 0 := by
    intro j
    by_cases hj : j < col
    · exact h3 row (le_refl row) hrow j hj
    · refine getD_eq_zero_of_ge _ _ ?_
      rw [(rows_nvlen_iff sys n_vars).mp h2 row (by omega)]
      omega
  have hpnone : sys.pivotOf row = none := pivotOf_none_of_all_zero sys row hrowzero
  refine ⟨h1, h2, fun k hk1 hk2 j hj => h3 k (by omega) hk2 j hj,
    ?_, ?_, ?_, ?_, ?_, ?_⟩
  · intro r1 r2 hlt hr2 hr2n hp1
    by_cases hr2row : r2 = row
    · subst hr2row
      exact hpnone
    · exact h4 r1 r2 hlt (by omega) hr2n hp1
  · intro r1 r2 p1 p2 hlt hr2 hr2n hp1 hp2
    by_cases hr2row : r2 = row
    · subst hr2row
      rw [hpnone] at hp2
      cases hp2
    · exact h5 r1 r2 p1 p2 hlt (by omega) hr2n hp1 hp2
  · intro r p hr hrn hp
    by_cases hrrow : r = row
    · subst hrrow
      rw [hpnone] at hp
      cases hp
    · exact h6 r p (by omega) hrn hp
  · intro r hr hrn hp
    by_cases hrrow : r = row
    · exact hcol
    · exact h7 r (by omega) hrn hp
  · intro r p hr hrn hp
    by_cases hrrow : r = row
    · subst hrrow
      rw [hpnone] at hp
      cases hp
    · exact h8 r p (by omega) hrn hp
  · intro r hr hrn hp j
    by_cases hrrow : r = row
    · subst hrrow
      exact hrowzero j
    · exact h9 r (by omega) hrn hp j

theorem ctfInv_colAdvance (sys : LinearSystem) (n_eq n_vars row col : ℕ)
    (hinv : ctfInv sys n_eq n_vars row col)
    (hrow : row < n_eq)
    (hclean : cleanSys sys = true)
    (hnz : isNearZero (sys.entry row col) = true)
    (hswnone : sys.swap_with_row_below_for_nonzero_coefficient row col = none) :
    ctfInv sys n_eq n_vars row (col + 1) := by
  obtain ⟨h1, h2, h3, h4, h5, h6, h7, h8, h9⟩ := hinv
  have hbelow : ∀ k, row < k → k < n_eq → isNearZero (sys.entry k col) = true := by
    intro k hk1 hk2
    unfold LinearSystem.swap_with_row_below_for_nonzero_coefficient at hswnone
    split at hswnone
    · cases hswnone
    · rename_i hfind
      have := List.find?_eq_none.mp hfind k
        (by
          rw [List.mem_range']
          exact ⟨k - (row + 1), by omega, by omega⟩)
      simpa using this
  have hcolzero : ∀ k, row ≤ k → k < n_eq → sys.entry k col = 0 := by
    intro k hk1 hk2
    rcases Nat.lt_or_ge row k with hlt | hge
    · exact clean_entry sys hclean k col (by omega) (hbelow k hlt hk2)
    · have hkr : k = row := by omega
      subst hkr
      exact clean_entry sys hclean k col (by omega) hnz
  refine ⟨h1, h2, ?_, h4, h5, ?_, ?_, h8, h9⟩
  · intro k hk1 hk2 j hj
    by_cases hjc : j = col
    · subst hjc
      exact hcolzero k hk1 hk2
    · exact h3 k hk1 hk2 j (by omega)
  · intro r p hr hrn hp
    have := h6 r p hr hrn hp
    omega
  · intro r hr hrn hp
    have := h7 r hr hrn hp
    omega

theorem ctfInv_to_triShape (sys : LinearSystem) (n_eq n_vars row col : ℕ)
    (hinv : ctfInv sys n_eq n_vars row col) (h : n_eq ≤ row) :
    triShape sys n_eq n_vars := by
  obtain ⟨h1, h2, _, h4, h5, _, _, h8, h9⟩ := hinv
  exact ⟨h1, h2,
    fun r1 r2 hlt hr2 hp1 => h4 r1 r2 hlt (by omega) hr2 hp1,
    fun r1 r2 p1 p2 hlt hr2 hp1 hp2 => h5 r1 r2 p1 p2 hlt (by omega) hr2 hp1 hp2,
    fun r p hr hp => h8 r p (by omega) hr hp,
    fun r hr hp => h9 r (by omega) hr hp⟩
theorem ctfGo_triShape (fuel : ℕ) : ∀ (sys : LinearSystem) (n_eq n_vars row col : ℕ),
    (n_eq - row) + (n_vars - col) < fuel →
    ctfCleanGo fuel sys n_eq n_vars row col = true →
    ctfInv sys n_eq n_vars row col →
    triShape (ctfGo fuel sys n_eq n_vars row col) n_eq n_vars := by
  induction fuel with
  | zero =>
      intro sys n_eq n_vars row col hfuel
      omega
  | succ fuel ih =>
      intro sys n_eq n_vars row col hfuel hclean hinv
      simp only [ctfCleanGo] at hclean
      rw [Bool.and_eq_true] at hclean
      obtain ⟨hcs, hbr⟩ := hclean
      simp only [ctfGo]
      by_cases h1 : row < n_eq
      · rw [if_pos h1]
        rw [if_pos h1] at hbr
        by_cases h2 : col < n_vars
        · rw [if_pos h2]
          rw [if_pos h2] at hbr
          by_cases h3 : isNearZero (sys.entry row col) = true
          · rw [if_pos h3]
            rw [if_pos h3] at hbr
            rcases hf : (List.range' (row + 1)
                (sys.planes.length - (row + 1))).find?
                (fun k => !isNearZero (sys.entry k col)) with _ | k0
            · have hswval : sys.swap_with_row_below_for_nonzero_coefficient
                  row col = none := by
                unfold LinearSystem.swap_with_row_below_for_nonzero_coefficient
                rw [hf]
              rw [hswval] at hbr ⊢
              exact ih sys n_eq n_vars row (col + 1) (by omega) hbr
                (ctfInv_colAdvance sys n_eq n_vars row col hinv h1 hcs h3 hswval)
            · have hswval : sys.swap_with_row_below_for_nonzero_coefficient
                  row col = some (sys.swap_rows row k0) := by
                unfold LinearSystem.swap_with_row_below_for_nonzero_coefficient
                rw [hf]
              rw [hswval] at hbr ⊢
              have hmem := List.mem_of_find?_eq_some hf
              rw [List.mem_range'] at hmem
              obtain ⟨i, hi, hki⟩ := hmem
              have hbounds : row < k0 ∧ k0 < n_eq := by
                constructor
                · omega
                · have := hinv.1
                  omega
              have hnzk0 : isNearZero (sys.entry k0 col) = false := by
                have := List.find?_some hf
                simpa using this
              have hinv1 := ctfInv_swap sys n_eq n_vars row col k0 hinv h1
                hbounds.1 hbounds.2
              have hnz1 : isNearZero ((sys.swap_rows row k0).entry row col)
                  = false := by
                have heq : (sys.swap_rows row k0).entry row col
                    = sys.entry k0 col := by
                  unfold LinearSystem.entry
                  rw [swap_rows_row_eval sys row k0 row
                    (by have := hinv.1; omega) (by have := hinv.1; omega),
                    if_pos rfl]
                rw [heq]
                exact hnzk0
              exact ih ((sys.swap_rows row k0).clear_coeffs_below row col)
                n_eq n_vars (row + 1) (col + 1) (by omega) hbr
                (ctfInv_step (sys.swap_rows row k0) n_eq n_vars row col hinv1
                  h1 h2 hnz1)
          · rw [if_neg h3]
            rw [if_neg h3] at hbr
            have h3f : isNearZero (sys.entry row col) = false := by
              rwa [Bool.not_eq_true] at h3
            exact ih (sys.clear_coeffs_below row col) n_eq n_vars
              (row + 1) (col + 1) (by omega) hbr
              (ctfInv_step sys n_eq n_vars row col hinv h1 h2 h3f)
        · rw [if_neg h2]
          rw [if_neg h2] at hbr
          exact ih sys n_eq n_vars (row + 1) col (by omega) hbr
            (ctfInv_colExhausted sys n_eq n_vars row col hinv h1 (by omega))
      · rw [if_neg h1]
        exact ctfInv_to_triShape sys n_eq n_vars row col hinv (by omega)
theorem row_eq_getElem (s : LinearSystem) (i : ℕ) (hi : i < s.planes.length) :
    s.row i = s.planes[i] := by
  unfold LinearSystem.row
  rw [List.getD_eq_getElem?_getD, List.getElem?_eq_getElem hi]
  rfl

theorem indices_getD (s : LinearSystem) (i : ℕ) (hi : i < s.planes.length) :
    s.indices_of_first_nonzero_terms_in_each_row.getD i (-1) =
      (match s.pivotOf i with
       | some p => (p : ℤ)
       | none => -1) := by
  unfold LinearSystem.indices_of_first_nonzero_terms_in_each_row
  rw [List.getD_eq_getElem?_getD, List.getElem?_map,
    List.getElem?_eq_getElem hi]
  unfold LinearSystem.pivotOf
  rw [row_eq_getElem s i hi]
  rfl

theorem multiply_row_eval (s : LinearSystem) (c : ℚ) (row : ℕ)
    (hrow : row < s.planes.length) :
    ((s.multiply_coefficient_and_row c row).row row =
      ⟨vscale c (s.row row).normal_vector, (s.row row).constant_term * c⟩) ∧
    (∀ k, k ≠ row → (s.multiply_coefficient_and_row c row).row k = s.row k) ∧
    (s.multiply_coefficient_and_row c row).planes.length = s.planes.length := by
  refine ⟨LinearSystem.row_set_self _ _ _ hrow,
    fun k hk => LinearSystem.row_set_ne _ _ _ _ hk, List.length_set _ _ _⟩

theorem rrefInv_step (t sys : LinearSystem) (n_eq n_vars m p : ℕ)
    (htri : triShape t n_eq n_vars)
    (hm : m < n_eq) (hp : t.pivotOf m = some p)
    (hinv : rrefInv t sys n_eq n_vars (m + 1)) :
    sys.entry m p ≠ 0 ∧
    rrefInv t ((sys.multiply_coefficient_and_row (1 / sys.entry m p)
        m).clear_coefficients_above m p) n_eq n_vars m := by
  obtain ⟨j1, j2, j3, j4, j5⟩ := hinv
  obtain ⟨t1, t2, t3, t4, t5, t6⟩ := htri
  have hml : m < sys.planes.length := by omega
  have hc0 : sys.entry m p ≠ 0 := by
    have h5m := j5 m p (by omega) hp
    rw [h5m.1]
    exact ne_zero_of_not_nearZero (pivotOf_some_elim t m p hp).2.1
  have hnv1 : ∀ k, k < n_eq → (sys.row k).normal_vector.length = n_vars :=
    fun k hk => (rows_nvlen_iff sys n_vars).mp j2 k (by omega)
  set c := sys.entry m p with hcdef
  have hmul := multiply_row_eval sys (1 / c) m hml
  set sys2 := sys.multiply_coefficient_and_row (1 / c) m with hsys2
  have hent2 : ∀ k j, sys2.entry k j =
      if k = m then (1 / c) * sys.entry k j else sys.entry k j := by
    intro k j
    by_cases hk : k = m
    · subst hk
      rw [if_pos rfl]
      show (sys2.row k).normal_vector.getD j 0 = _
      rw [hmul.1]
      exact vscale_getD _ _ _
    · rw [if_neg hk]
      exact entry_congr _ sys k (hmul.2.1 k hk) j
  have hlen2 : sys2.planes.length = n_eq := by
    rw [hmul.2.2]
    exact j1
  have hnv2 : ∀ k, k < n_eq → (sys2.row k).normal_vector.length = n_vars := by
    intro k hk
    by_cases hkm : k = m
    · subst hkm
      rw [hmul.1]
      show (vscale (1 / c) (sys.row k).normal_vector).length = n_vars
      rw [vscale_length]
      exact hnv1 k hk
    · rw [hmul.2.1 k hkm]
      exact hnv1 k hk
  have hcr := clear_coefficients_above_rows sys2 m p
  set sys3 := sys2.clear_coefficients_above m p with hsys3
  have hlen3 : sys3.planes.length = n_eq := by
    rw [hcr.1]
    exact hlen2
  have hfroz3 : ∀ k, m ≤ k → sys3.row k = sys2.row k :=
    fun k hk => hcr.2.1 k hk
  have hent3 : ∀ k j, k < m →
      sys3.entry k j = -(sys2.entry k p) * sys2.entry m j + sys2.entry k j := by
    intro k j hk
    show (sys3.row k).normal_vector.getD j 0 = _
    rw [hcr.2.2 k hk (by omega)]
    show (vadd (vscale (-(sys2.entry k p)) (sys2.row m).normal_vector)
      (sys2.row k).normal_vector).getD j 0 = _
    rw [vadd_getD _ _ _
      (by rw [vscale_length, hnv2 m hm, hnv2 k (by omega)]), vscale_getD]
    rfl
  have hent3' : ∀ k j, m ≤ k → sys3.entry k j = sys2.entry k j :=
    fun k j hk => entry_congr _ sys2 k (hfroz3 k hk) j
  have hpivot1 : sys3.entry m p = 1 := by
    rw [hent3' m p (le_refl m), hent2, if_pos rfl]
    field_simp
  have h2mp : sys2.entry m p = 1 := by
    rw [hent2, if_pos rfl]
    field_simp
  refine ⟨hc0, hlen3, ?_, ?_, ?_, ?_⟩
  · rw [rows_nvlen_iff]
    intro k hk
    rw [hlen3] at hk
    by_cases hkm : m ≤ k
    · rw [hfroz3 k hkm]
      exact hnv2 k hk
    · rw [hcr.2.2 k (by omega) (by omega)]
      show (vadd (vscale (-(sys2.entry k p)) (sys2.row m).normal_vector)
        (sys2.row k).normal_vector).length = n_vars
      rw [vadd_length, vscale_length, hnv2 m hm, hnv2 k hk, min_self]
  · intro r q hr hrn hq
    by_cases hrm : r = m
    · subst hrm
      rw [hp] at hq
      injection hq with hq
      subst hq
      refine ⟨hpivot1, ?_, ?_⟩
      · intro j hj
        rw [hent3' r j (le_refl r), hent2 r j, if_pos rfl,
          (j5 r p (by omega) hp).2.1 j hj]
        ring
      · intro k hk hkr
        rcases Nat.lt_or_ge k r with hkm | hkm
        · rw [hent3 k p hkm, h2mp]
          ring
        · rw [hent3' k p hkm, hent2 k p, if_neg (by omega),
            (j5 r p (by omega) hp).2.2 k (by omega) hk]
    · have hge : m + 1 ≤ r := by omega
      obtain ⟨e1, e2, e3⟩ := j3 r q hge hrn hq
      refine ⟨?_, ?_, ?_⟩
      · rw [hent3' r q (by omega), hent2 r q, if_neg hrm]
        exact e1
      · intro j hj
        rw [hent3' r j (by omega), hent2 r j, if_neg hrm]
        exact e2 j hj
      · intro k hk hkr
        rcases Nat.lt_trichotomy k m with hkm | hkm | hkm
        · rw [hent3 k q hkm, hent2 m q, if_pos rfl, e3 m (by omega) (by omega),
            hent2 k q, if_neg (by omega), e3 k hk hkr]
          ring
        · subst hkm
          rw [hent3' k q (le_refl k), hent2 k q, if_pos rfl,
            e3 k hk hkr]
          ring
        · rw [hent3' k q (by omega), hent2 k q, if_neg (by omega), e3 k hk hkr]
  · intro r hrn hnone
    have hmr : m < r := by
      rcases Nat.lt_trichotomy r m with hlt | heq | hgt
      · exact absurd (t3 r m hlt hm hnone) (by rw [hp]; intro h; cases h)
      · subst heq
        rw [hp] at hnone
        cases hnone
      · exact hgt
    rw [hfroz3 r (by omega), hmul.2.1 r (by omega)]
    exact j4 r hrn hnone
  · intro r q hr hq
    have hqp : q < p := t4 r m q p hr hm hq hp
    obtain ⟨f1, f2, f3⟩ := j5 r q (by omega) hq
    obtain ⟨g1, g2, g3⟩ := j5 m p (by omega) hp
    have h2mq : sys2.entry m q = 0 := by
      rw [hent2 m q, if_pos rfl, f3 m hr hm]
      ring
    refine ⟨?_, ?_, ?_⟩
    · rw [hent3 r q hr, h2mq, hent2 r q, if_neg (by omega), f1]
      ring
    · intro j hj
      rw [hent3 r j hr]
      have h2mj : sys2.entry m j = 0 := by
        rw [hent2 m j, if_pos rfl, g2 j (by omega)]
        ring
      rw [h2mj, hent2 r j, if_neg (by omega), f2 j hj]
      ring
    · intro k hk hkn
      rcases Nat.lt_trichotomy k m with hkm | hkm | hkm
      · rw [hent3 k q hkm, h2mq, hent2 k q, if_neg (by omega), f3 k hk hkn]
        ring
      · subst hkm
        rw [hent3' k q (le_refl k)]
        exact h2mq
      · rw [hent3' k q (by omega), hent2 k q, if_neg (by omega)]
        exact f3 k hk hkn
theorem rrefGo_spec (t : LinearSystem) (n_eq n_vars : ℕ)
    (htri : triShape t n_eq n_vars) :
    ∀ (m : ℕ) (sys : LinearSystem), m ≤ n_eq →
      rrefInv t sys n_eq n_vars m →
      ∃ r, rrefGo t.indices_of_first_nonzero_terms_in_each_row sys m = some r ∧
        rrefInv t r n_eq n_vars 0 := by
  intro m
  induction m with
  | zero =>
      intro sys _ hinv
      exact ⟨sys, rfl, hinv⟩
  | succ m ih =>
      intro sys hm hinv
      have hml : m < t.planes.length := by
        rw [htri.1]
        omega
      have hgetD := indices_getD t m hml
      simp only [rrefGo]
      rcases hpm : t.pivotOf m with _ | p
      · rw [hpm] at hgetD
        rw [hgetD]
        rw [if_pos (by decide)]
        refine ih sys (by omega) ?_
        obtain ⟨j1, j2, j3, j4, j5⟩ := hinv
        refine ⟨j1, j2, ?_, j4, ?_⟩
        · intro r q hr hrn hq
          by_cases hrm : r = m
          · subst hrm
            rw [hpm] at hq
            cases hq
          · exact j3 r q (by omega) hrn hq
        · intro r q hr hq
          exact j5 r q (by omega) hq
      · rw [hpm] at hgetD
        rw [hgetD]
        rw [if_neg (by
          simp only [not_lt]
          exact Int.natCast_nonneg p)]
        have hstep := rrefInv_step t sys n_eq n_vars m p htri (by omega)
          hpm hinv
        have htoNat : ((p : ℤ)).toNat = p := Int.toNat_natCast p
        rw [htoNat]
        unfold LinearSystem.scale_row_to_make_coefficient_equal_one
        dsimp only
        rw [if_neg hstep.1]
        exact ih _ (by omega) hstep.2
/-- C5 (amended): for every well-formed dimension-3 system whose run
performs only `Decimal`-exact arithmetic (`exactDecimalRun`: every
division, scalar product and sum has an exact result representable in 30
significant digits, so the source's precision-30 `Decimal` computes it
exactly) and whose triangular run is clean, `compute_rref` succeeds,
every pivot-bearing row of the result has entry exactly one at its
(first non-near-zero) pivot column with near-zero entries above it, and
every pivotless row is exactly the row the triangular form produced.
The exactness hypothesis restricts the statement to the runs on which
the program agrees with the rational embedding; the proof is in exact
arithmetic and does not consume it.  Without it, `Decimal` rounding
falsifies "exactly one": the single row `3x = 3` scales its pivot to
`3 · round30(1.0/3) = 0.999999999999999999999999999999 ≠ 1`, and the
reciprocal `1/3` fails `isRepr30`, so that input is excluded here.
(Even on exact runs the unconditional claim is false: see the
counterexample, where normalising a pivot lifts a near-zero entry on its
left above epsilon.) -/
theorem claim_C5 (s : LinearSystem)
    (hlen : ∀ p ∈ s.planes, p.normal_vector.length = 3)
    (_hexact : s.exactDecimalRun = true)
    (hclean : s.cleanTriangularRun = true) :
    rrefClaimB s = true := by
  have htri : triShape s.compute_triangular_form s.planes.length 3 :=
    ctfGo_triShape (s.planes.length + 3 + 1) s s.planes.length 3 0 0
      (by omega) hclean
      ⟨rfl, hlen,
       fun k hk1 hk2 j hj => absurd hj (by omega),
       fun r1 r2 hlt hr2 hr2n hp1 => absurd hr2 (by omega),
       fun r1 r2 p1 p2 hlt hr2 hr2n hp1 hp2 => absurd hr2 (by omega),
       fun r p hr hrn hp => absurd hr (by omega),
       fun r hr hrn hp => absurd hr (by omega),
       fun r p hr hrn hp => absurd hr (by omega),
       fun r hr hrn hp => absurd hr (by omega)⟩
  have hinv0 : rrefInv s.compute_triangular_form s.compute_triangular_form
      s.planes.length 3 s.planes.length :=
    ⟨htri.1, htri.2.1,
     fun r q hr hrn _ => absurd hrn (by omega),
     fun _ _ _ => rfl,
     fun r q hr hq =>
       ⟨rfl, (htri.2.2.2.2.1 r q (by omega) hq).1,
        (htri.2.2.2.2.1 r q (by omega) hq).2⟩⟩
  obtain ⟨r, hsome, hfin⟩ := rrefGo_spec s.compute_triangular_form
    s.planes.length 3 htri s.planes.length s.compute_triangular_form
    (le_refl _) hinv0
  have hrref : s.compute_rref = some r := by
    unfold LinearSystem.compute_rref
    rw [← htri.1] at hsome
    exact hsome
  unfold rrefClaimB
  rw [hrref]
  rw [List.all_eq_true]
  intro i hi
  rw [List.mem_range] at hi
  obtain ⟨k1, k2, k3, k4, k5⟩ := hfin
  have hin : i < s.planes.length := by
    rw [k1] at hi
    exact hi
  unfold rrefRowOkB
  rcases hpi : LinearSystem.pivotOf s.compute_triangular_form i with _ | p
  · have hrow := k4 i hin hpi
    have hfz : firstNonzeroIndex (r.row i).normal_vector = none := by
      rw [hrow]
      exact hpi
    rw [hfz]
    rw [hrow]
    simp
  · obtain ⟨e1, e2, e3⟩ := k3 i p (Nat.zero_le i) hin hpi
    have hplen : p < (r.row i).normal_vector.length := by
      rw [(rows_nvlen_iff r 3).mp k2 i (by omega)]
      have hp1 := (pivotOf_some_elim _ i p hpi).1
      rwa [(rows_nvlen_iff _ 3).mp htri.2.1 i (by rw [htri.1]; exact hin)]
        at hp1
    have hfz : firstNonzeroIndex (r.row i).normal_vector = some p := by
      have := pivotOf_some_intro r i p hplen
        (by rw [show r.entry i p = 1 from e1]; exact isNearZero_one)
        (fun j hj => e2 j hj)
      exact this
    rw [hfz]
    rw [Bool.and_eq_true]
    refine ⟨by rw [decide_eq_true_eq]; exact e1, ?_⟩
    rw [List.all_eq_true]
    intro k hk
    rw [List.mem_range] at hk
    rw [show r.entry k p = 0 from e3 k (by omega) (by omega)]
    exact isNearZero_zero

/-- C5 witness: the concrete unique-solution system's run is
`Decimal`-exact and clean, and its reduced form has the claimed shape
(via `claim_C5`). -/
theorem claim_C5_witness : rrefClaimB sysUnique = true :=
  claim_C5 sysUnique (by decide) (by decide) (by decide)

end UdacityLinAlg
